import Mathlib

/-!
# Verification of the pysim FastSim core against its specification

Shallow embedding, over exact rationals, of the numeric core of the
`pysim` train in-train-force simulator:

* `FastSimODE.py`   — the state-derivative function (rope-force lookup,
  hysteresis-envelope interpolation, force saturation, derivative assembly);
* `ode23simple.py`  — the adaptive Bogacki–Shampine RK23 integrator;
* `FastSimM.py` / `ssCouplerDisplacement.py` — steady-state initialization;
* `defineCarGroups.py` — the car-group partitioner;
* `defineCouplers.py`  — configuration-error checks.

Floating-point numbers are modelled as exact rationals (`ℚ`); float
literals in the source denote the corresponding decimal rationals.  The
floating-point cube root `(...)**(1/3)` appearing in the integrator's
step-size control has no exact rational counterpart, so the integrator
model is parameterized by an arbitrary function `cbrt : ℚ → ℚ` standing
for it; the structural theorems below hold for every such function.
-/

unseal Rat.add Rat.mul Rat.inv Rat.sub Rat.ofScientific

set_option maxRecDepth 8000

namespace PySim

/-! ## Basic numeric helpers -/

/-- Python's builtin `round` (also `numpy.round`): round half to even,
exactly as used by `FastSimODE.py` line 41 and `defineCarGroups.py`
line 110. -/
def pyRound (q : ℚ) : ℤ :=
  let f : ℤ := q.floor
  let frac : ℚ := q - f
  if frac < 1/2 then f
  else if 1/2 < frac then f + 1
  else if f % 2 = 0 then f else f + 1

/-- Machine epsilon of IEEE-754 binary64 (`sys.float_info.epsilon`,
`np.finfo(float).eps`). -/
def eps64 : ℚ := mkRat 1 (2 ^ 52)

/-- Smallest positive normal binary64 (`np.finfo(float).tiny`). -/
def tiny64 : ℚ := mkRat 1 (2 ^ 1022)

/-- Pointwise update of a vector represented as a function, modelling a
single `v[i] = val` array write. -/
def upd (f : ℕ → ℚ) (i : ℕ) (v : ℚ) : ℕ → ℚ :=
  fun j => if j = i then v else f j

/-- Infinity norm of the first `nx` components of a vector, modelling
`numpy.linalg.norm(v, inf)`. -/
def infNorm (nx : ℕ) (v : ℕ → ℚ) : ℚ :=
  ((List.range nx).map fun j => |v j|).foldl max 0

/-! ## FastSimODE.py — the state-derivative function

State layout (`FastSimODE.py` lines 10-12): for `n` coupler groups,
`X[0:n] = F1` (force state before limiting), `X[n:2n] = DV` (relative
velocity), `X[2n:3n] = DX` (relative displacement).  Vectors are total
functions `ℕ → ℚ`; the tables carry their lengths separately. -/

/-- Static inputs of `FastSimODE` (`t` and `X` are passed separately). -/
structure FSParams where
  /-- number of coupler groups `n` -/
  n : ℕ
  /-- rope-force time vector `T` (assumed fixed step) -/
  T : ℕ → ℚ
  /-- `len(T)` -/
  lenT : ℕ
  /-- rope forces vs time, `FROPE[row, coupler]` -/
  FROPE : ℕ → ℕ → ℚ
  /-- viscous damping `b` per coupler -/
  b : ℕ → ℚ
  /-- nonlinear (EOCC) damping `c` per coupler -/
  c : ℕ → ℚ
  /-- mass `M` per vehicle group -/
  M : ℕ → ℚ
  /-- common displacement grid `x2all` (assumed uniform step) -/
  x2all : ℕ → ℚ
  /-- `len(x2all)` -/
  m : ℕ
  /-- upper hysteresis envelope `Fmax2all[row, coupler]` -/
  Fmax2all : ℕ → ℕ → ℚ
  /-- lower hysteresis envelope `Fmin2all[row, coupler]` -/
  Fmin2all : ℕ → ℕ → ℚ
  /-- locked spring constant per coupler -/
  Klocked : ℕ → ℚ
  /-- anti-windup gain per coupler -/
  Kawu : ℕ → ℚ

/-- `FastSimODE.py` line 40: `dt = T[1] - T[0]`. -/
def FSParams.dtT (p : FSParams) : ℚ := p.T 1 - p.T 0

/-- `FastSimODE.py` line 41:
`i = min(len(T), max(0, int(round((t - T[0]) / dt))))` — the row index
into the rope-force table used at time `t`. -/
def ropeForceIndex (T0 dt : ℚ) (lenT : ℕ) (t : ℚ) : ℤ :=
  min (lenT : ℤ) (max 0 (pyRound ((t - T0) / dt)))

/-- Rope force actually used at time `t` for coupler `i`
(`FastSimODE.py` line 42: `Frope = FROPE[i,:]`). -/
def FSParams.FropeAt (p : FSParams) (t : ℚ) (i : ℕ) : ℚ :=
  p.FROPE (ropeForceIndex (p.T 0) p.dtT p.lenT t).toNat i

/-- `FastSimODE.py` line 48: `dx = x2all[1] - x2all[0]`. -/
def FSParams.dx (p : FSParams) : ℚ := p.x2all 1 - p.x2all 0

/-- `FastSimODE.py` line 62: `idx = (DX - x2all[0]) / dx` (real-valued
grid position of the displacement `DX`). -/
def FSParams.envIdxQ (p : FSParams) (DX : ℚ) : ℚ :=
  (DX - p.x2all 0) / p.dx

/-- `FastSimODE.py` line 63: `idx0 = int(math.floor(idx))`. -/
def FSParams.envIdx0 (p : FSParams) (DX : ℚ) : ℤ :=
  (p.envIdxQ DX).floor

/-- `FastSimODE.py` line 64: `frac = idx - idx0`.  Note this is computed
from the UNCLAMPED `idx0`, before the bounds checks of lines 68-73. -/
def FSParams.envFrac (p : FSParams) (DX : ℚ) : ℚ :=
  p.envIdxQ DX - p.envIdx0 DX

/-- `FastSimODE.py` lines 65-73: the pair `(idx0, idx1)` of table rows
after bounds clamping. -/
def FSParams.envBracket (p : FSParams) (DX : ℚ) : ℤ × ℤ :=
  let idx0 := p.envIdx0 DX
  if idx0 < 0 then (0, 1)
  else if idx0 > (p.m : ℤ) - 2 then ((p.m : ℤ) - 2, (p.m : ℤ) - 1)
  else (idx0, idx0 + 1)

/-- `FastSimODE.py` line 78: linear interpolation of the lower envelope
at displacement `DX` for coupler `i`. -/
def FSParams.FminAt (p : FSParams) (i : ℕ) (DX : ℚ) : ℚ :=
  let frac := p.envFrac DX
  p.Fmin2all (p.envBracket DX).1.toNat i * (1 - frac) +
    p.Fmin2all (p.envBracket DX).2.toNat i * frac

/-- `FastSimODE.py` line 79: linear interpolation of the upper envelope
at displacement `DX` for coupler `i`. -/
def FSParams.FmaxAt (p : FSParams) (i : ℕ) (DX : ℚ) : ℚ :=
  let frac := p.envFrac DX
  p.Fmax2all (p.envBracket DX).1.toNat i * (1 - frac) +
    p.Fmax2all (p.envBracket DX).2.toNat i * frac

/-- `FastSimODE.py` lines 82-87: the realized coupler force `F[i]`, the
force state `F1` saturated to `[Fmin, Fmax]`. -/
def FSParams.Fsat (p : FSParams) (i : ℕ) (F1 DX : ℚ) : ℚ :=
  if F1 < p.FminAt i DX then p.FminAt i DX
  else if F1 > p.FmaxAt i DX then p.FmaxAt i DX
  else F1

/-- `FastSimODE.py` line 91: net force on vehicle `i`,
`e[i] = F[i] - Frope[i] + b[i]*DV + c[i]*DV*DX*F[i]`. -/
def FSParams.eNet (p : FSParams) (t : ℚ) (X : ℕ → ℚ) (i : ℕ) : ℚ :=
  let DX := X (i + 2 * p.n)
  let DV := X (i + p.n)
  let F := p.Fsat i (X i) DX
  F - p.FropeAt t i + p.b i * DV + p.c i * DV * DX * F

/-- `FastSimODE.py` lines 95-97: absolute acceleration of vehicle `i`. -/
def FSParams.accel (p : FSParams) (t : ℚ) (X : ℕ → ℚ) (i : ℕ) : ℚ :=
  if i = 0 then p.eNet t X 0 / p.M 0
  else (p.eNet t X i - p.eNet t X (i - 1)) / p.M i

/-- `FastSimODE.py` lines 34 and 103-111: the state-derivative vector
`Xdot`.  `Xdot` starts as `np.zeros(3*n)`; the loop of lines 103-106
writes entries `i`, `i+n`, `i+2n` for `i < n-1`; the final block of
lines 108-111 then performs, with `i = n-1` and in this order, the
three writes `Xdot[i] = Klocked[i]*X[2*i] + Kawu[i]*(F[i] - X[i])`,
`Xdot[2*i] = 0`, `Xdot[3*i] = X[2*i]`, exactly as in the source
(including the literal `2*i` / `3*i` index arithmetic). -/
def fastSimXdot (p : FSParams) (t : ℚ) (X : ℕ → ℚ) : ℕ → ℚ :=
  let loop := (List.range (p.n - 1)).foldl (fun Xdot i =>
    upd (upd (upd Xdot
      i (p.Klocked i * X (i + p.n) +
          p.Kawu i * (p.Fsat i (X i) (X (i + 2 * p.n)) - X i)))
      (i + p.n) (p.accel t X (i + 1) - p.accel t X i))
      (i + 2 * p.n) (X (i + p.n))) (fun _ => 0)
  let i := p.n - 1
  upd (upd (upd loop
    i (p.Klocked i * X (2 * i) +
        p.Kawu i * (p.Fsat i (X i) (X (i + 2 * p.n)) - X i)))
    (2 * i) 0)
    (3 * i) (X (2 * i))

/-! ## Concrete instances used by counterexamples and witnesses -/

/-- A minimal single-group parameter set: two rope-force samples at
times 0 and 1, zero rope force, flat zero hysteresis envelope on the
grid `{0, 1}`, unit mass, no damping. -/
def fsParams1 : FSParams where
  n := 1
  T := fun j => j
  lenT := 2
  FROPE := fun _ _ => 0
  b := fun _ => 0
  c := fun _ => 0
  M := fun _ => 1
  x2all := fun j => j
  m := 2
  Fmax2all := fun _ _ => 0
  Fmin2all := fun _ _ => 0
  Klocked := fun _ => 5
  Kawu := fun _ => 7

/-- State with `F1 = 0`, `DV = 1`, `DX = 0` for a single coupler group. -/
def stateDV1 : ℕ → ℚ := fun j => if j = 1 then 1 else 0

/-! ## Claim C1 — rope-force index clamping -/

/-- C1 (code bug): the rope-force row index is NOT always clamped into
the valid range `0 .. len(T)-1`.  With two samples at times 0 and 1
(so `T0 = 0`, `dt = 1`, `len(T) = 2`) and `t = 2`, the code's clamp
`min(len(T), max(0, round((t-T0)/dt)))` yields index `2 = len(T)`,
one past the last valid row, so `FROPE[i,:]` raises `IndexError`
in the source instead of returning the nearest sample.  (The MATLAB
original's `min(length(T), ...)` is correct under 1-based indexing;
the Python port kept it unchanged, an off-by-one.) -/
theorem ropeForceIndex_overrun_out_of_range :
    ropeForceIndex 0 1 2 2 = 2 ∧ ¬ ropeForceIndex 0 1 2 2 ≤ 2 - 1 := by
  constructor <;> decide

/-! ## Claim C2 — last coupler group's derivative components -/

/-- C2 (code bug): for `n = 1` with state `F1 = 0`, `DV = 1`, `DX = 0`,
`Klocked = 5`, `Kawu = 7`, the derivative returned by `FastSimODE` has
`Xdot[2] = 0` even though the displacement derivative should be
`DV = X[1] = 1`, and `Xdot[0] = 0` even though the last group's force
derivative should be `Klocked[0]*DV[0] + Kawu[0]*(F[0]-F1[0]) = 5`.
The final block of `FastSimODE.py` (lines 108-111) writes
`X[2*i]`, `Xdot[2*i]`, `Xdot[3*i]` with `i = n-1`, a literal port of
the MATLAB 1-based indices; for `n = 1` all three writes alias index 0,
leaving `Xdot = [X[0], 0, 0]`, which contradicts the source's own
state-layout and derivative documentation (lines 10-12, 100-102). -/
theorem fastSimXdot_last_group_bug :
    fastSimXdot fsParams1 0 stateDV1 2 = 0 ∧ stateDV1 1 = 1 ∧
      fastSimXdot fsParams1 0 stateDV1 0 = 0 ∧
      fsParams1.Klocked 0 * stateDV1 1 +
        fsParams1.Kawu 0 *
          (fsParams1.Fsat 0 (stateDV1 0) (stateDV1 2) - stateDV1 0) = 5 := by
  refine ⟨?_, ?_, ?_, ?_⟩ <;> decide

/-! ## Claim C5 — envelope bracketing, interpolation and saturation -/

/-- Bridge between the executable `Rat.floor` used in the definitions and
Mathlib's `Int.floor`. -/
theorem ratFloor_eq_floor (q : ℚ) : q.floor = ⌊q⌋ :=
  (Rat.floor_def' q).trans Rat.floor_def.symm

/-- Modelled from the claim's words ("extrapolation beyond the table
edges reuses the boundary segment's slope"): the upper envelope linearly
extended along the clamped bracket's segment, i.e. the value the claim
asserts the code computes for out-of-range displacements. -/
def boundarySlopeFmax (p : FSParams) (i : ℕ) (DX : ℚ) : ℚ :=
  p.Fmax2all (p.envBracket DX).1.toNat i +
    (p.envIdxQ DX - (p.envBracket DX).1) *
      (p.Fmax2all (p.envBracket DX).2.toNat i -
        p.Fmax2all (p.envBracket DX).1.toNat i)

/-- Parameters with a three-point displacement grid `{0, 1, 2}` and a
slope-one upper envelope (`Fmax2all[k, i] = k`). -/
def fsParams3 : FSParams :=
  { fsParams1 with
    m := 3
    Fmax2all := fun k _ => k
    Fmin2all := fun k _ => (k : ℚ) - 10 }

/-- C5 counterexample: at displacement `DX = -3/2`, below the grid
`{0, 1, 2}` whose boundary segment has slope one, the code interpolates
with the fractional part `frac = 1/2` computed BEFORE clamping
(`FastSimODE.py` line 64), producing `Fmax = 1/2` — a value inside the
boundary segment — whereas extrapolation along the boundary segment's
slope, as the claim asserts, would give `-3/2`. -/
theorem envelope_extrapolation_counterexample :
    fsParams3.FmaxAt 0 (-3/2) = 1/2 ∧
      boundarySlopeFmax fsParams3 0 (-3/2) = -3/2 ∧
      fsParams3.FmaxAt 0 (-3/2) ≠ boundarySlopeFmax fsParams3 0 (-3/2) := by
  refine ⟨?_, ?_, ?_⟩ <;> decide

/-- C5 (amended): for every parameter set with at least two grid points,
(1) the clamped bracket `(idx0, idx1)` always consists of two adjacent
indices within the table bounds; (2) the realized force is the raw
force state saturated to the interpolated envelope: `F = F1` whenever
`Fmin ≤ F1 ≤ Fmax`, and `Fmin ≤ F ≤ Fmax` always holds when
`Fmin ≤ Fmax`; (3) on a uniform grid with positive step, whenever no
clamping occurs the bracket genuinely contains `DX`.  (The claim's
further assertion that out-of-range displacements are extrapolated
along the boundary segment's slope is false: `frac` is taken before
clamping, so the value is interpolated inside the boundary segment —
see the counterexample.) -/
theorem envelope_bracket_saturation (p : FSParams) (i : ℕ) (DX F1 : ℚ)
    (hm : 2 ≤ p.m) :
    (0 ≤ (p.envBracket DX).1 ∧
      (p.envBracket DX).2 = (p.envBracket DX).1 + 1 ∧
      (p.envBracket DX).2 ≤ (p.m : ℤ) - 1) ∧
    (p.FminAt i DX ≤ F1 → F1 ≤ p.FmaxAt i DX → p.Fsat i F1 DX = F1) ∧
    (p.FminAt i DX ≤ p.FmaxAt i DX →
      p.FminAt i DX ≤ p.Fsat i F1 DX ∧ p.Fsat i F1 DX ≤ p.FmaxAt i DX) ∧
    (0 < p.dx → (∀ k, k < p.m → p.x2all k = p.x2all 0 + k * p.dx) →
      0 ≤ p.envIdx0 DX → p.envIdx0 DX ≤ (p.m : ℤ) - 2 →
      p.x2all (p.envBracket DX).1.toNat ≤ DX ∧
        DX < p.x2all (p.envBracket DX).2.toNat) := by
  refine ⟨?_, ?_, ?_, ?_⟩
  · by_cases h1 : p.envIdx0 DX < 0
    · have hbr : p.envBracket DX = (0, 1) := by
        simp only [FSParams.envBracket, if_pos h1]
      rw [hbr]
      exact ⟨le_refl 0, rfl, by omega⟩
    · by_cases h2 : p.envIdx0 DX > (p.m : ℤ) - 2
      · have hbr : p.envBracket DX = ((p.m : ℤ) - 2, (p.m : ℤ) - 1) := by
          simp only [FSParams.envBracket, if_neg h1, if_pos h2]
        rw [hbr]
        exact ⟨by omega, by omega, by omega⟩
      · have hbr : p.envBracket DX = (p.envIdx0 DX, p.envIdx0 DX + 1) := by
          simp only [FSParams.envBracket, if_neg h1, if_neg h2]
        rw [hbr]
        exact ⟨by omega, rfl, by omega⟩
  · intro hlo hhi
    unfold FSParams.Fsat
    rw [if_neg (not_lt.mpr hlo), if_neg (not_lt.mpr hhi)]
  · intro hmm
    unfold FSParams.Fsat
    split_ifs with hA hB
    · exact ⟨le_refl _, hmm⟩
    · exact ⟨hmm, le_refl _⟩
    · exact ⟨not_lt.mp hA, not_lt.mp hB⟩
  · intro hdx huni h0 h2
    have hbr : p.envBracket DX = (p.envIdx0 DX, p.envIdx0 DX + 1) := by
      simp only [FSParams.envBracket, if_neg (not_lt.mpr h0), if_neg (not_lt.mpr h2)]
    have hfl : p.envIdx0 DX = ⌊p.envIdxQ DX⌋ := ratFloor_eq_floor _
    have hDX : DX = p.x2all 0 + p.envIdxQ DX * p.dx := by
      unfold FSParams.envIdxQ
      field_simp
    have hc1 : ((p.envIdx0 DX).toNat : ℚ) = ((p.envIdx0 DX : ℤ) : ℚ) := by
      exact_mod_cast congrArg (fun z : ℤ => (z : ℚ)) (Int.toNat_of_nonneg h0)
    have hc2 : (((p.envIdx0 DX + 1).toNat : ℕ) : ℚ) =
        ((p.envIdx0 DX : ℤ) : ℚ) + 1 := by
      have h0' : (0 : ℤ) ≤ p.envIdx0 DX + 1 := by omega
      have := congrArg (fun z : ℤ => (z : ℚ)) (Int.toNat_of_nonneg h0')
      push_cast at this ⊢
      linarith
    have ht1 : (p.envIdx0 DX).toNat < p.m := by omega
    have ht2 : (p.envIdx0 DX + 1).toNat < p.m := by omega
    have hx1 : p.x2all (p.envIdx0 DX).toNat =
        p.x2all 0 + ((p.envIdx0 DX : ℤ) : ℚ) * p.dx := by
      rw [huni (p.envIdx0 DX).toNat ht1, hc1]
    have hx2 : p.x2all (p.envIdx0 DX + 1).toNat =
        p.x2all 0 + (((p.envIdx0 DX : ℤ) : ℚ) + 1) * p.dx := by
      rw [huni (p.envIdx0 DX + 1).toNat ht2, hc2]
    rw [hbr]
    constructor
    · rw [hx1]
      have hle : ((p.envIdx0 DX : ℤ) : ℚ) ≤ p.envIdxQ DX := by
        rw [hfl]; exact Int.floor_le _
      have hmul := mul_le_mul_of_nonneg_right hle (le_of_lt hdx)
      linarith [hDX]
    · rw [hx2]
      have hlt : p.envIdxQ DX < ((p.envIdx0 DX : ℤ) : ℚ) + 1 := by
        rw [hfl]; exact Int.lt_floor_add_one _
      have hmul := mul_lt_mul_of_pos_right hlt hdx
      linarith [hDX]

/-- C5 witness: concrete instance of `envelope_bracket_saturation` — at
`DX = 1/2` on the grid `{0, 1, 2}` the bracket is `(0, 1)` (in bounds)
and the in-band force state `F1 = 0` passes through unsaturated. -/
theorem envelope_bracket_saturation_witness :
    (0 ≤ (fsParams3.envBracket (1/2)).1 ∧
      (fsParams3.envBracket (1/2)).2 = (fsParams3.envBracket (1/2)).1 + 1 ∧
      (fsParams3.envBracket (1/2)).2 ≤ (fsParams3.m : ℤ) - 1) ∧
    fsParams3.Fsat 0 0 (1/2) = 0 := by
  have h := envelope_bracket_saturation fsParams3 0 (1/2) 0 (by decide)
  exact ⟨h.1, h.2.1 (by decide) (by decide)⟩

/-! ## ode23simple.py — the adaptive RK23 integrator

The integrator is modelled as a fuel-indexed loop over an explicit
state record.  `TOUT` is the list of requested output times; `tout`
starts as a copy of `TOUT` and `xout` as a zero matrix of the same row
count (`ode23simple.py` lines 44-47), rows being overwritten as outputs
are captured.  The floating-point cube root in the step-size update
(lines 54 and 115) is the parameter `cbrt`. -/

/-- `rtol = 1.e-2` (`ode23simple.py` line 33). -/
def rtolC : ℚ := 1/100

/-- `atol = 1.e-3` (`ode23simple.py` line 34). -/
def atolC : ℚ := 1/1000

/-- `threshold = atol/rtol` (`ode23simple.py` line 36). -/
def thresholdC : ℚ := atolC / rtolC

/-- `hmin = 16*eps*|t|` (`ode23simple.py` line 68). -/
def hminOf (t : ℚ) : ℚ := 16 * eps64 * |t|

/-- `ode23simple.py` lines 70-73: clamp the step into `[hmin, hmax]`
(upper clamp first, then lower clamp). -/
def clampStep (hmax hmin h : ℚ) : ℚ :=
  let h1 := if h > hmax then hmax else h
  if h1 < hmin then hmin else h1

/-- `ode23simple.py` lines 75-79 applied after the clamp: the step
size actually attempted — stretched to land exactly on `tnext` when
`1.1*h ≥ tnext - t`. -/
def attemptedStep (hmax tnext t h : ℚ) : ℚ :=
  let hc := clampStep hmax (hminOf t) h
  if 11/10 * hc ≥ tnext - t then tnext - t else hc

/-- Second RK stage `s2 = f(t+h/2, x+h/2*s1)` (`ode23simple.py` line 82). -/
def odeS2 (p : FSParams) (t h : ℚ) (x s1 : ℕ → ℚ) : ℕ → ℚ :=
  fastSimXdot p (t + h/2) (fun j => x j + h/2 * s1 j)

/-- Third RK stage `s3 = f(t+3h/4, x+3h/4*s2)` (`ode23simple.py` line 83). -/
def odeS3 (p : FSParams) (t h : ℚ) (x s1 : ℕ → ℚ) : ℕ → ℚ :=
  fastSimXdot p (t + 3*h/4) (fun j => x j + 3*h/4 * odeS2 p t h x s1 j)

/-- Proposed new state `xnew = x + h*(2*s1 + 3*s2 + 4*s3)/9`
(`ode23simple.py` line 86). -/
def odeXnew (p : FSParams) (t h : ℚ) (x s1 : ℕ → ℚ) : ℕ → ℚ :=
  fun j => x j +
    h * (2 * s1 j + 3 * odeS2 p t h x s1 j + 4 * odeS3 p t h x s1 j) / 9

/-- Fourth stage `s4 = f(t+h, xnew)` (`ode23simple.py` line 89). -/
def odeS4 (p : FSParams) (t h : ℚ) (x s1 : ℕ → ℚ) : ℕ → ℚ :=
  fastSimXdot p (t + h) (odeXnew p t h x s1)

/-- Normalized error estimate of a step (`ode23simple.py` lines 90-92):
`err_est = norm(e / clip(max(|x|,|xnew|), threshold), inf) + tiny`
with `e = h*(-5*s1 + 6*s2 + 8*s3 - 9*s4)/72`. -/
def odeErrEst (p : FSParams) (t h : ℚ) (x s1 : ℕ → ℚ) : ℚ :=
  infNorm (3 * p.n) (fun j =>
    (h * (-5 * s1 j + 6 * odeS2 p t h x s1 j + 8 * odeS3 p t h x s1 j -
        9 * odeS4 p t h x s1 j) / 72) /
      max (max |x j| |odeXnew p t h x s1 j|) thresholdC) + tiny64

/-- Mutable state of the `ode23simple` time-stepping loop.  The state
vector `x` and the first stage `s1` are materialized rational vectors
(numpy arrays in the source). -/
structure OdeState where
  /-- current time `t` -/
  t : ℚ
  /-- current state vector `x` -/
  x : List ℚ
  /-- candidate step size `h` for the next iteration -/
  h : ℚ
  /-- first stage `s1` (FSAL reuse of the last `s4`) -/
  s1 : List ℚ
  /-- index of the next requested output time -/
  knext : ℕ
  /-- next requested output time `tnext = TOUT[knext]` -/
  tnext : ℚ
  /-- output times (preallocated copy of `TOUT`) -/
  tout : List ℚ
  /-- output states (preallocated zero rows) -/
  xout : List (List ℚ)
  /-- failure flag `stats.err` -/
  errFlag : ℕ
  /-- `stats.hmax` -/
  hmaxStat : ℚ
  /-- `stats.hmin` -/
  hminStat : ℚ
  /-- `stats.nsteps` -/
  nsteps : ℕ
  /-- `stats.nfailed` -/
  nfailed : ℕ
  /-- set by the `break` of `ode23simple.py` line 120 -/
  stop : Bool

/-- View a materialized vector as a total function (missing entries
default to 0, matching the zero-initialized arrays of the source). -/
def vecF (v : List ℚ) : ℕ → ℚ := fun j => v.getD j 0

/-- One iteration of the `while t < tEnd` loop (`ode23simple.py`
lines 66-120). -/
def odeBody (p : FSParams) (TOUT : List ℚ) (hmax : ℚ) (cbrt : ℚ → ℚ)
    (st : OdeState) : OdeState :=
  let hmin := hminOf st.t
  let hc := clampStep hmax hmin st.h
  let h := if 11/10 * hc ≥ st.tnext - st.t then st.tnext - st.t else hc
  let errEst := odeErrEst p st.t h (vecF st.x) (vecF st.s1)
  let st1 :=
    if errEst ≤ rtolC then
      let tnew := st.t + h
      let xnew := (List.range (3 * p.n)).map (odeXnew p st.t h (vecF st.x) (vecF st.s1))
      let stA := { st with
        t := tnew, x := xnew,
        hmaxStat := max st.hmaxStat h, hminStat := min st.hminStat h,
        nsteps := st.nsteps + 1,
        s1 := (List.range (3 * p.n)).map (odeS4 p st.t h (vecF st.x) (vecF st.s1)) }
      if 11/10 * hc ≥ st.tnext - st.t then
        let k1 := stA.knext + 1
        let k2 := if k1 > TOUT.length - 1 then TOUT.length - 1 else k1
        { stA with
          tout := stA.tout.set stA.knext tnew,
          xout := stA.xout.set stA.knext xnew,
          knext := k2, tnext := TOUT.getD k2 0 }
      else stA
    else { st with nfailed := st.nfailed + 1 }
  let hnew := h * min 5 (4/5 * cbrt (rtolC / errEst))
  if hnew ≤ hmin then { st1 with h := hnew, errFlag := 1, stop := true }
  else { st1 with h := hnew }

/-- The fuel-indexed stepping loop: iterate `odeBody` while `t < tEnd`
and the `break` flag is unset. -/
def odeLoop (p : FSParams) (TOUT : List ℚ) (tEnd hmax : ℚ) (cbrt : ℚ → ℚ) :
    ℕ → OdeState → OdeState
  | 0, st => st
  | fuel + 1, st =>
    if st.stop = false ∧ st.t < tEnd then
      odeLoop p TOUT tEnd hmax cbrt fuel (odeBody p TOUT hmax cbrt st)
    else st

/-- Initialization (`ode23simple.py` lines 39-63): copies `TOUT` into
`tout`, preallocates `xout = zeros(len(TOUT), nx)`, stores row 0, and
chooses the initial step `h = 0.8*rtol^(1/3)/r` from the scaled slope at
`t0`. -/
def odeInit (p : FSParams) (TOUT : List ℚ) (cbrt : ℚ → ℚ) (x0 : List ℚ) :
    OdeState :=
  let t0 := TOUT.getD 0 0
  let s1 := (List.range (3 * p.n)).map (fastSimXdot p t0 (vecF x0))
  let r := infNorm (3 * p.n)
    (fun j => vecF s1 j / max |vecF x0 j| thresholdC) + tiny64
  let h := 4/5 * cbrt rtolC / r
  { t := t0, x := x0, h := h, s1 := s1
    knext := 1, tnext := TOUT.getD 1 0
    tout := TOUT.set 0 t0
    xout := (List.replicate TOUT.length (List.replicate (3 * p.n) (0 : ℚ))).set 0 x0
    errFlag := 0, hmaxStat := h, hminStat := h
    nsteps := 0, nfailed := 0, stop := false }

/-- Full run of `ode23simple`: initialize, then step until `t` reaches
`tEnd`, the loop breaks on step-size underflow, or fuel runs out. -/
def ode23simple (p : FSParams) (TOUT : List ℚ) (x0 : List ℚ)
    (cbrt : ℚ → ℚ) (fuel : ℕ) : OdeState :=
  let t0 := TOUT.getD 0 0
  let tEnd := TOUT.getD (TOUT.length - 1) 0
  let hmax := 1/10 * (tEnd - t0)
  odeLoop p TOUT tEnd hmax cbrt fuel (odeInit p TOUT cbrt x0)

/-! ## Concrete integrator runs -/

/-- Single-group parameters whose rope-force series covers times
`0 .. 11` with zero force and a flat zero envelope. -/
def fsParamsRun : FSParams :=
  { fsParams1 with T := fun j => j, lenT := 12 }

/-- Requested output times for the underflow run: start 1, end 10. -/
def toutPair : List ℚ := [1, 10]

/-- A run that underflows the step size: zero initial state and zero
dynamics make every step accepted with `err_est = tiny`, while the
modelled cube root `cbrt ≡ 1/10` shrinks the step by the factor
`0.8/10` each iteration until it falls below `hmin = 16*eps*|t|`. -/
def runUnderflow : OdeState :=
  ode23simple fsParamsRun toutPair [0, 0, 0] (fun _ => 1/10) 40

/-- Requested output times for the stretch run: the second output time
`21/20` lies just beyond `hmax = 1`. -/
def toutStretch : List ℚ := [0, 21/20, 10]

/-- Initial state for the stretch run (`F1 = 9/500`). -/
def x0Stretch : List ℚ := [9/500, 0, 0]

/-- A run in which the first attempted step is stretched to land on the
output time `21/20`, exceeding `hmax = 1`; the step is accepted, so
`stats.hmax` records `21/20`. -/
def runStretch : OdeState :=
  ode23simple fsParamsRun toutStretch x0Stretch (fun _ => 27/125) 50

/-- Concrete loop state used to witness a rejected step: the state
`x = (1,0,0)` with `s1 = f(t,x)` and attempted step 1 produces the
normalized error estimate `1/64 + tiny > rtol`. -/
def stReject : OdeState where
  t := 0
  x := [1, 0, 0]
  h := 1
  s1 := [1, 0, 0]
  knext := 1
  tnext := 100
  tout := [0, 100, 1000]
  xout := [[0, 0, 0], [0, 0, 0], [0, 0, 0]]
  errFlag := 0
  hmaxStat := 1
  hminStat := 1
  nsteps := 0
  nfailed := 0
  stop := false

/-! ## Claim C3 — behaviour on step-size underflow -/

/-- The loop body never changes the number of output rows: `tout` is
only modified by in-place `List.set` writes. -/
theorem odeBody_tout_length (p : FSParams) (TOUT : List ℚ) (hmax : ℚ)
    (cbrt : ℚ → ℚ) (st : OdeState) :
    (odeBody p TOUT hmax cbrt st).tout.length = st.tout.length := by
  simp only [odeBody]
  split_ifs <;> simp [List.length_set]

/-- The loop body never changes the number of state rows in `xout`. -/
theorem odeBody_xout_length (p : FSParams) (TOUT : List ℚ) (hmax : ℚ)
    (cbrt : ℚ → ℚ) (st : OdeState) :
    (odeBody p TOUT hmax cbrt st).xout.length = st.xout.length := by
  simp only [odeBody]
  split_ifs <;> simp [List.length_set]

/-- Once the failure flag is set, the `break` flag is set with it, and
the loop body preserves this implication. -/
theorem odeBody_err_stop (p : FSParams) (TOUT : List ℚ) (hmax : ℚ)
    (cbrt : ℚ → ℚ) (st : OdeState) (hst : st.errFlag = 1 → st.stop = true) :
    (odeBody p TOUT hmax cbrt st).errFlag = 1 →
      (odeBody p TOUT hmax cbrt st).stop = true := by
  simp only [odeBody]
  split_ifs <;> intro h <;> first | rfl | exact hst h

/-- Invariants of the stepping loop: output row counts are preserved
and a set failure flag comes with a set `break` flag. -/
theorem odeLoop_invariants (p : FSParams) (TOUT : List ℚ) (tEnd hmax : ℚ)
    (cbrt : ℚ → ℚ) :
    ∀ (fuel : ℕ) (st : OdeState), (st.errFlag = 1 → st.stop = true) →
      (odeLoop p TOUT tEnd hmax cbrt fuel st).tout.length = st.tout.length ∧
      (odeLoop p TOUT tEnd hmax cbrt fuel st).xout.length = st.xout.length ∧
      ((odeLoop p TOUT tEnd hmax cbrt fuel st).errFlag = 1 →
        (odeLoop p TOUT tEnd hmax cbrt fuel st).stop = true)
  | 0, st, hst => ⟨rfl, rfl, hst⟩
  | fuel + 1, st, hst => by
    unfold odeLoop
    split
    · have ih := odeLoop_invariants p TOUT tEnd hmax cbrt fuel
        (odeBody p TOUT hmax cbrt st) (odeBody_err_stop p TOUT hmax cbrt st hst)
      refine ⟨?_, ?_, ih.2.2⟩
      · rw [ih.1, odeBody_tout_length]
      · rw [ih.2.1, odeBody_xout_length]
    · exact ⟨rfl, rfl, hst⟩

/-- C3 (amended): when the integrator's step size underflows `hmin`, it
sets the failure flag `stats.err = 1` and stops early via the loop's
`break` (no exception is modelled or needed — the failure is reported in
the returned statistics), but the returned trajectory arrays keep
exactly the requested output count: `tout` and `xout` are preallocated
with one row per requested output time and returned whole, rows after
the failure point retaining the requested times and zero states.  The
trajectory is therefore never shorter than the requested output count. -/
theorem ode23_underflow_flag_full_length (p : FSParams) (TOUT : List ℚ)
    (x0 : List ℚ) (cbrt : ℚ → ℚ) (fuel : ℕ)
    (hfail : (ode23simple p TOUT x0 cbrt fuel).errFlag = 1) :
    (ode23simple p TOUT x0 cbrt fuel).tout.length = TOUT.length ∧
      (ode23simple p TOUT x0 cbrt fuel).xout.length = TOUT.length ∧
      (ode23simple p TOUT x0 cbrt fuel).stop = true := by
  have h := odeLoop_invariants p TOUT (TOUT.getD (TOUT.length - 1) 0)
    (1/10 * (TOUT.getD (TOUT.length - 1) 0 - TOUT.getD 0 0)) cbrt fuel
    (odeInit p TOUT cbrt x0) (by intro hh; exact absurd hh (by simp [odeInit]))
  unfold ode23simple
  refine ⟨?_, ?_, ?_⟩
  · rw [h.1]; simp [odeInit]
  · rw [h.2.1]; simp [odeInit]
  · exact h.2.2 hfail

/-- C3 witness: the concrete underflow run fails (`errFlag = 1`) and
returns both trajectory arrays with the full requested length 2. -/
theorem ode23_underflow_flag_full_length_witness :
    runUnderflow.tout.length = toutPair.length ∧
      runUnderflow.xout.length = toutPair.length ∧
      runUnderflow.stop = true :=
  ode23_underflow_flag_full_length fsParamsRun toutPair [0, 0, 0]
    (fun _ => 1/10) 40 (by decide)

/-- C3 counterexample: in the concrete underflow run the step-size
failure occurs (`stats.err = 1`, loop stopped early, only 13 accepted
steps), yet the returned trajectory has `tout` of length 2 — exactly
the requested output count, NOT shorter as the claim asserts. -/
theorem ode23_underflow_not_shorter_counterexample :
    runUnderflow.errFlag = 1 ∧ runUnderflow.stop = true ∧
      runUnderflow.tout.length = 2 ∧ toutPair.length = 2 ∧
      ¬ runUnderflow.tout.length < toutPair.length := by
  refine ⟨?_, ?_, ?_, ?_, ?_⟩ <;> decide

/-! ## Claim C6 — step-size update law and rejection behaviour -/

/-- C6: in every loop iteration, whatever the accept/reject outcome,
the stored step size for the next iteration equals the attempted step
multiplied by `min(5, 0.8*(rtol/err_est)^(1/3))` (the cube root being
the model parameter `cbrt`); and when the step is rejected
(`err_est > rtol`), neither `t` nor `x` advances and no output is
recorded — only the failed-step counter is incremented, with `nsteps`,
`knext`, `tout`, `xout` and the FSAL stage `s1` all unchanged. -/
theorem ode23_step_update_and_rejection (p : FSParams) (TOUT : List ℚ)
    (hmax : ℚ) (cbrt : ℚ → ℚ) (st : OdeState) :
    (odeBody p TOUT hmax cbrt st).h =
      attemptedStep hmax st.tnext st.t st.h *
        min 5 (4/5 * cbrt (rtolC / odeErrEst p st.t
          (attemptedStep hmax st.tnext st.t st.h) (vecF st.x) (vecF st.s1))) ∧
    (rtolC < odeErrEst p st.t (attemptedStep hmax st.tnext st.t st.h)
        (vecF st.x) (vecF st.s1) →
      (odeBody p TOUT hmax cbrt st).t = st.t ∧
      (odeBody p TOUT hmax cbrt st).x = st.x ∧
      (odeBody p TOUT hmax cbrt st).nfailed = st.nfailed + 1 ∧
      (odeBody p TOUT hmax cbrt st).nsteps = st.nsteps ∧
      (odeBody p TOUT hmax cbrt st).knext = st.knext ∧
      (odeBody p TOUT hmax cbrt st).tout = st.tout ∧
      (odeBody p TOUT hmax cbrt st).xout = st.xout ∧
      (odeBody p TOUT hmax cbrt st).s1 = st.s1) := by
  constructor
  · simp only [odeBody, attemptedStep]
    split_ifs <;> rfl
  · intro hrej
    have hne : ¬ odeErrEst p st.t (attemptedStep hmax st.tnext st.t st.h)
        (vecF st.x) (vecF st.s1) ≤ rtolC := not_le.mpr hrej
    simp only [attemptedStep] at hne
    simp only [odeBody]
    split_ifs at hne ⊢ <;>
      first
        | exact absurd (by assumption) hne
        | exact ⟨rfl, rfl, rfl, rfl, rfl, rfl, rfl, rfl⟩

/-- C6 witness: a concrete rejected step — at the state `stReject` the
error estimate is `1/64 + tiny > rtol = 1/100`, and the body leaves
`t`, `x`, `nsteps`, `knext`, `tout`, `xout`, `s1` unchanged while
incrementing `nfailed`. -/
theorem ode23_step_rejection_witness :
    (odeBody fsParamsRun [0, 100, 1000] 100 (fun _ => 1/10) stReject).t =
        stReject.t ∧
      (odeBody fsParamsRun [0, 100, 1000] 100 (fun _ => 1/10) stReject).x =
        stReject.x ∧
      (odeBody fsParamsRun [0, 100, 1000] 100 (fun _ => 1/10) stReject).nfailed =
        stReject.nfailed + 1 ∧
      (odeBody fsParamsRun [0, 100, 1000] 100 (fun _ => 1/10) stReject).nsteps =
        stReject.nsteps ∧
      (odeBody fsParamsRun [0, 100, 1000] 100 (fun _ => 1/10) stReject).knext =
        stReject.knext ∧
      (odeBody fsParamsRun [0, 100, 1000] 100 (fun _ => 1/10) stReject).tout =
        stReject.tout ∧
      (odeBody fsParamsRun [0, 100, 1000] 100 (fun _ => 1/10) stReject).xout =
        stReject.xout ∧
      (odeBody fsParamsRun [0, 100, 1000] 100 (fun _ => 1/10) stReject).s1 =
        stReject.s1 :=
  (ode23_step_update_and_rejection fsParamsRun [0, 100, 1000] 100
    (fun _ => 1/10) stReject).2 (by decide)

/-! ## Claim C7 — bounds on the attempted step size -/

/-- C7 (amended): each iteration first clamps the candidate step into
`[hmin, hmax]` (with `hmin = 16*eps*|t|`, `hmax = 0.1*(tEnd - t0)`);
when `t` is close to the next requested output time
(`1.1*h ≥ tnext - t`) the step is then OVERRIDDEN to land exactly on
that output time, `h = tnext - t` — a value that may lie outside
`[hmin, hmax]`.  The bound `hmin ≤ h ≤ hmax` therefore holds for every
attempted step in which no output-time stretch occurs, but not
unconditionally (see the counterexample). -/
theorem attempted_step_bounds (hmax tnext t h : ℚ)
    (hle : hminOf t ≤ hmax) :
    (11/10 * clampStep hmax (hminOf t) h ≥ tnext - t →
      attemptedStep hmax tnext t h = tnext - t) ∧
    (¬ 11/10 * clampStep hmax (hminOf t) h ≥ tnext - t →
      hminOf t ≤ attemptedStep hmax tnext t h ∧
        attemptedStep hmax tnext t h ≤ hmax) := by
  constructor
  · intro hc
    simp only [attemptedStep]
    rw [if_pos hc]
  · intro hc
    simp only [attemptedStep]
    rw [if_neg hc]
    simp only [clampStep]
    split_ifs <;> constructor <;> linarith

/-- C7 witness: at `t = 0`, `hmax = 1`, candidate step 2 and distant
output time `tnext = 10`, no stretch occurs and the attempted step is
clamped into `[hmin, hmax] = [0, 1]`. -/
theorem attempted_step_bounds_witness :
    hminOf 0 ≤ attemptedStep 1 10 0 2 ∧ attemptedStep 1 10 0 2 ≤ 1 :=
  (attempted_step_bounds 1 10 0 2 (by decide)).2 (by decide)

/-- C7 counterexample: in the concrete stretch run the initial step is
at most 1 = hmax, yet the first iteration stretches the step to land on
the output time `21/20`, attempts and accepts it, so the run's recorded
maximum accepted step `stats.hmax = 21/20` EXCEEDS the claimed bound
`hmax = 0.1*(tEnd - t0) = 1`: not every attempted step satisfies
`h ≤ hmax`. -/
theorem attempted_step_exceeds_hmax_counterexample :
    (odeInit fsParamsRun toutStretch (fun _ => 27/125) x0Stretch).h ≤ 1 ∧
      attemptedStep (1/10 * (10 - 0)) (21/20) 0
        (odeInit fsParamsRun toutStretch (fun _ => 27/125) x0Stretch).h = 21/20 ∧
      runStretch.hmaxStat = 21/20 ∧
      ¬ runStretch.hmaxStat ≤ 1/10 * (10 - 0) := by
  refine ⟨?_, ?_, ?_, ?_⟩ <;> decide

/-! ## ssCouplerDisplacement.py and FastSimM.py — steady-state
initialization -/

/-- `numpy.sign`. -/
def npSign (q : ℚ) : ℚ := if q < 0 then -1 else if q = 0 then 0 else 1

/-- Interior scan of `numpy.interp`: walk the remaining `(x, f)` points
keeping the previous point `(x0, f0)`; interpolate linearly inside the
first segment whose right endpoint reaches `x`, and clip to the last
value beyond the table. -/
def npInterpGo (x x0 f0 : ℚ) : List (ℚ × ℚ) → ℚ
  | [] => f0
  | (x1, f1) :: rest =>
    if x ≤ x1 then f0 + (x - x0) * (f1 - f0) / (x1 - x0)
    else npInterpGo x x1 f1 rest

/-- `numpy.interp(x, xp, fp)` on the zipped point list (with `xp`
increasing): clips to `fp[0]` below the table, to `fp[-1]` above it,
linear interpolation in between. -/
def npInterp (x : ℚ) : List (ℚ × ℚ) → ℚ
  | [] => 0
  | (x0, f0) :: rest => if x ≤ x0 then f0 else npInterpGo x x0 f0 rest

/-- `np.max(np.abs(column))` for a table column of length `ntable`. -/
def maxAbsCol (ntable : ℕ) (col : ℕ → ℚ) : ℚ :=
  ((List.range ntable).map fun k => |col k|).foldl max 0

/-- `ssCouplerDisplacement.py` lines 19-32: the steady-state
displacement of coupler `i`.  `d = sign(Frope[1,i] - Frope[0,i])`
selects the envelope (`Fmin` for `d < 0`, `Fmax` otherwise, including
the tie `d = 0`); a perturbation `(k+1)*e` with
`e = max|Fmax| * eps * 2` is added to the tabulated forces and the
displacement is read off by `np.interp` of `x2all` against the
perturbed force column. -/
def ssCouplerDisplacement (ntable : ℕ) (x2all : ℕ → ℚ)
    (Fmin2all Fmax2all Frope : ℕ → ℕ → ℚ) (i : ℕ) : ℚ :=
  let d := npSign (Frope 1 i - Frope 0 i)
  let e := maxAbsCol ntable (fun k => Fmax2all k i) * eps64 * 2
  if d < 0 then
    npInterp (Frope 0 i)
      ((List.range ntable).map fun k => (Fmin2all k i + (k + 1) * e, x2all k))
  else
    npInterp (Frope 0 i)
      ((List.range ntable).map fun k => (Fmax2all k i + (k + 1) * e, x2all k))

/-- `FastSimM.py` lines 72-78, the `'steady-state'` initial-state
branch: `F10 = Frope[0,:]`, `DV0 = 0*F10`,
`DX0 = ssCouplerDisplacement(x2all, Fmin2all, Fmax2all, Frope)`, and
`X0 = concat([F10, DV0, DX0])`.  The final `X0[np.isnan(X0)] = 0` write
is the identity over exact rationals (no NaN exists in the embedding,
and over finite inputs the source produces no NaN either: `np.interp`
clips instead of extrapolating). -/
def fastSimSteadyX0 (n ntable : ℕ) (x2all : ℕ → ℚ)
    (Fmin2all Fmax2all Frope : ℕ → ℕ → ℚ) : ℕ → ℚ :=
  fun j =>
    if j < n then Frope 0 j
    else if j < 2 * n then 0
    else ssCouplerDisplacement ntable x2all Fmin2all Fmax2all Frope (j - 2 * n)

/-! ## Claim C4 — steady-state initial state -/

/-- C4: with `X0 = 'steady-state'`, the initial state has the force
block equal to the first rope-force row, the relative-velocity block
zero, and the displacement block obtained by inverting (via `np.interp`
on the epsilon-perturbed tabulated envelope) the upper envelope `Fmax`
when the rope force does not decrease over its first two samples, and
the lower envelope `Fmin` when it decreases.  (The non-finite-to-zero
replacement is the identity here: over the exact-rational embedding all
values are finite.) -/
theorem steady_state_init (n ntable : ℕ) (x2all : ℕ → ℚ)
    (Fmin2all Fmax2all Frope : ℕ → ℕ → ℚ) (j : ℕ) :
    (j < n → fastSimSteadyX0 n ntable x2all Fmin2all Fmax2all Frope j =
      Frope 0 j) ∧
    (n ≤ j → j < 2 * n →
      fastSimSteadyX0 n ntable x2all Fmin2all Fmax2all Frope j = 0) ∧
    (2 * n ≤ j → n ≤ 2 * n →
      (Frope 0 (j - 2 * n) ≤ Frope 1 (j - 2 * n) →
        fastSimSteadyX0 n ntable x2all Fmin2all Fmax2all Frope j =
          npInterp (Frope 0 (j - 2 * n))
            ((List.range ntable).map fun k =>
              (Fmax2all k (j - 2 * n) +
                (k + 1) * (maxAbsCol ntable
                  (fun k' => Fmax2all k' (j - 2 * n)) * eps64 * 2),
               x2all k))) ∧
      (Frope 1 (j - 2 * n) < Frope 0 (j - 2 * n) →
        fastSimSteadyX0 n ntable x2all Fmin2all Fmax2all Frope j =
          npInterp (Frope 0 (j - 2 * n))
            ((List.range ntable).map fun k =>
              (Fmin2all k (j - 2 * n) +
                (k + 1) * (maxAbsCol ntable
                  (fun k' => Fmax2all k' (j - 2 * n)) * eps64 * 2),
               x2all k)))) := by
  refine ⟨?_, ?_, ?_⟩
  · intro hj
    simp only [fastSimSteadyX0, if_pos hj]
  · intro h1 h2
    simp only [fastSimSteadyX0, if_neg (not_lt.mpr h1), if_pos h2]
  · intro h1 _
    have hn : ¬ j < n := by omega
    have h2 : ¬ j < 2 * n := by omega
    constructor
    · intro hinc
      have hd : ¬ npSign (Frope 1 (j - 2 * n) - Frope 0 (j - 2 * n)) < 0 := by
        unfold npSign
        split_ifs with hneg hzero
        · linarith
        · norm_num
        · norm_num
      simp only [fastSimSteadyX0, if_neg hn, if_neg h2,
        ssCouplerDisplacement, if_neg hd]
    · intro hdec
      have hd : npSign (Frope 1 (j - 2 * n) - Frope 0 (j - 2 * n)) < 0 := by
        unfold npSign
        rw [if_pos (by linarith)]
        norm_num
      simp only [fastSimSteadyX0, if_neg hn, if_neg h2,
        ssCouplerDisplacement, if_pos hd]

/-- C4 witness: for one coupler (`n = 1`) with a two-row envelope table
`Fmax = (0, 1)` on the grid `(0, 1)` and rope force increasing from
`1/2` to `1`: the force block is `1/2`, the velocity block is `0`, and
the displacement block inverts the perturbed upper envelope at `1/2`
(the perturbation is `e = 2*eps`). -/
theorem steady_state_init_witness :
    fastSimSteadyX0 1 2 (fun k => k) (fun k _ => -(k : ℚ)) (fun k _ => k)
        (fun r _ => if r = 0 then 1/2 else 1) 0 = 1/2 ∧
      fastSimSteadyX0 1 2 (fun k => k) (fun k _ => -(k : ℚ)) (fun k _ => k)
        (fun r _ => if r = 0 then 1/2 else 1) 1 = 0 ∧
      fastSimSteadyX0 1 2 (fun k => k) (fun k _ => -(k : ℚ)) (fun k _ => k)
        (fun r _ => if r = 0 then 1/2 else 1) 2 =
        npInterp (1/2) [(2 * eps64, 0), (1 + 2 * (2 * eps64), 1)] := by
  have h := steady_state_init 1 2 (fun k => k) (fun k _ => -(k : ℚ))
    (fun k _ => k) (fun r _ => if r = 0 then 1/2 else 1)
  refine ⟨(h 0).1 (by decide), (h 1).2.1 (by decide) (by decide), ?_⟩
  refine (((h 2).2.2 (by decide) (by decide)).1 (by decide)).trans ?_
  decide

/-! ## Claim C10 — steady-state envelope selection tie-breaking -/

/-- C10: when the rope force's first difference is nonnegative —
including exactly zero — `ssCouplerDisplacement` inverts the UPPER
envelope `Fmax` (`d = sign(diff) = 0` falls into the `else` branch of
the `d < 0` test); only a strictly negative first difference selects
`Fmin`.  Moreover the perturbation `(k+1)*e` added to the tabulated
forces is strictly increasing in the row index whenever the envelope
column is not identically zero (`e = max|Fmax| * eps * 2 > 0`). -/
theorem ssCoupler_tie_breaks_to_Fmax (ntable : ℕ) (x2all : ℕ → ℚ)
    (Fmin2all Fmax2all Frope : ℕ → ℕ → ℚ) (i : ℕ)
    (hinc : Frope 0 i ≤ Frope 1 i) :
    ssCouplerDisplacement ntable x2all Fmin2all Fmax2all Frope i =
      npInterp (Frope 0 i)
        ((List.range ntable).map fun k =>
          (Fmax2all k i +
            (k + 1) * (maxAbsCol ntable (fun k' => Fmax2all k' i) * eps64 * 2),
           x2all k)) ∧
    (0 < maxAbsCol ntable (fun k' => Fmax2all k' i) →
      StrictMono (fun k : ℕ =>
        ((k : ℚ) + 1) *
          (maxAbsCol ntable (fun k' => Fmax2all k' i) * eps64 * 2))) := by
  constructor
  · have hd : ¬ npSign (Frope 1 i - Frope 0 i) < 0 := by
      unfold npSign
      split_ifs with hneg hzero
      · linarith
      · norm_num
      · norm_num
    simp only [ssCouplerDisplacement, if_neg hd]
  · intro hpos
    have heps : (0 : ℚ) < eps64 := by decide
    have he : 0 < maxAbsCol ntable (fun k' => Fmax2all k' i) * eps64 * 2 := by
      positivity
    apply strictMono_nat_of_lt_succ
    intro k
    have hk : ((k : ℚ) + 1) < ((k : ℚ) + 1 + 1) := by linarith
    push_cast
    nlinarith

/-- C10 witness: with a constant rope force (first difference exactly
zero) and the nonzero envelope column `Fmax = (0, 1)`, the upper
envelope is selected and the perturbation is strictly increasing. -/
theorem ssCoupler_tie_breaks_to_Fmax_witness :
    ssCouplerDisplacement 2 (fun k => k) (fun k _ => -(k : ℚ))
        (fun k _ => k) (fun _ _ => 1/2) 0 =
      npInterp (1/2)
        ((List.range 2).map fun k =>
          ((k : ℚ) +
            (k + 1) * (maxAbsCol 2 (fun k' => ((k' : ℚ))) * eps64 * 2),
           k)) ∧
      StrictMono (fun k : ℕ =>
        ((k : ℚ) + 1) * (maxAbsCol 2 (fun k' => ((k' : ℚ))) * eps64 * 2)) := by
  have h := ssCoupler_tie_breaks_to_Fmax 2 (fun k => k)
    (fun k _ => -(k : ℚ)) (fun k _ => k) (fun _ _ => 1/2) 0 (by decide)
  exact ⟨h.1, h.2 (by decide)⟩

/-! ## defineCouplers.py / defineCarGroups.py — configuration errors -/

/-- Per-coupler-type fields of the spec structure relevant to the
configuration checks of `defineCouplers.py` (every constructed spec
carries `Funits = 'kips'`, `Xunits = 'in'`; lines 68-69 and 99-100). -/
structure CouplerSpec where
  /-- coupler type tag -/
  type : String
  /-- force units -/
  Funits : String
  /-- displacement units -/
  Xunits : String

/-- Spec construction for one coupler type (`defineCouplers.py`
lines 58-124, checks only): a zero preload yields the standard draft
gear; a nonzero preload yields the EOCC coupler, whose construction
asserts `stroke + dx1 > x1` (line 93) with
`x1 = preload/K1 + xdeadzone`, `K1 = 100/(0.61-0.43)`,
`dx1 = (-1.5+0.62)*stroke/28`; violation raises
`'stroke is too small'`. -/
def mkCouplerSpec (preload stroke : ℚ) : Except String CouplerSpec :=
  if preload = 0 then
    .ok { type := "standard", Funits := "kips", Xunits := "in" }
  else
    let xdeadzone : ℚ := 43/100
    let K1 : ℚ := 100 / (61/100 - 43/100)
    let x1 := preload / K1 + xdeadzone
    let dx1 := (-(3/2) + 62/100) * stroke / 28
    if stroke + dx1 > x1 then
      .ok { type := "EOCC", Funits := "kips", Xunits := "in" }
    else .error "stroke is too small"

/-- `defineCouplers.py` lines 157-163: raise when force or displacement
units are not common across the coupler types
(`len(set(units_list)) > 1`). -/
def checkUnits (spec : List CouplerSpec) : Except String Unit :=
  if 1 < ((spec.map fun s => s.Funits).dedup).length then
    .error "Force units not common"
  else if 1 < ((spec.map fun s => s.Xunits).dedup).length then
    .error "Displacment units not common"
  else .ok ()

/-- Checks portion of `defineCouplers`: construct every type's spec
(asserting each stroke), then verify unit consistency. -/
def defineCouplersChecks (preloads strokes : List ℚ) :
    Except String (List CouplerSpec) := do
  let spec ← (List.zip preloads strokes).mapM fun ps => mkCouplerSpec ps.1 ps.2
  match checkUnits spec with
  | .ok _ => pure spec
  | .error e => .error e

/-- Grouping-limit argument of `defineCarGroups`: a bare number or a
dict, the latter modelled as its list of (field, value) pairs. -/
inductive DCarArg where
  /-- scalar grouping limit -/
  | num (q : ℚ)
  /-- dict grouping limit with named fields -/
  | dict (fields : List (String × ℚ))

/-- Field membership test for a dict argument. -/
def DCarArg.hasField : DCarArg → String → Bool
  | .num _, _ => false
  | .dict fs, s => fs.any fun p => p.1 = s

/-- `defineCarGroups.py` lines 44-53: a dict-shaped grouping limit must
have field set `{eocc, norm}` or `{eocc100, eocc050, norm}`; any other
dict raises; a bare number passes. -/
def validateDCar (dcar : DCarArg) : Except String Unit :=
  match dcar with
  | .dict _ =>
    if (dcar.hasField "eocc" && dcar.hasField "norm") ||
        (dcar.hasField "eocc100" && dcar.hasField "eocc050" &&
          dcar.hasField "norm") then .ok ()
    else .error "dcar: unexpected fields"
  | .num _ => .ok ()

/-- Sequencing of `runFastSimM.py`: the configuration phase
(`initFastSim`, line 97, which calls `defineCouplers` and
`defineCarGroups`) runs before the integration (`FastSimM`,
line 114); a configuration error short-circuits and no integrator
state is produced. -/
def runWithChecks (chk : Except String Unit) (run : Unit → OdeState) :
    Except String OdeState := do
  match chk with
  | .ok _ => pure (run ())
  | .error e => .error e

/-! ## Claim C9 — configuration errors surface before integration -/

/-- C9: (1) `defineCouplers` raises `'Force units not common'` whenever
the constructed coupler specs disagree on force units, and
`'Displacment units not common'` whenever they agree on force units but
disagree on displacement units; (2) it raises `'stroke is too small'`
for any nonzero preload whose stroke fails `stroke + dx1 > x1`;
(3) `defineCarGroups` raises `'dcar: unexpected fields'` for any
dict-shaped grouping limit lacking both recognized field sets
`{eocc, norm}` and `{eocc100, eocc050, norm}`; and (4) a configuration
error short-circuits the driver before any integration state is
produced. -/
theorem config_errors_surface (specs : List CouplerSpec)
    (preload stroke : ℚ) (fs : List (String × ℚ)) (em : String)
    (run : Unit → OdeState) :
    (1 < ((specs.map fun s => s.Funits).dedup).length →
      checkUnits specs = .error "Force units not common") ∧
    (¬ 1 < ((specs.map fun s => s.Funits).dedup).length →
      1 < ((specs.map fun s => s.Xunits).dedup).length →
      checkUnits specs = .error "Displacment units not common") ∧
    (preload ≠ 0 →
      ¬ stroke + (-(3/2) + 62/100) * stroke / 28 >
          preload / (100 / (61/100 - 43/100)) + 43/100 →
      mkCouplerSpec preload stroke = .error "stroke is too small") ∧
    (¬ ((DCarArg.dict fs).hasField "eocc" &&
          (DCarArg.dict fs).hasField "norm" ||
        ((DCarArg.dict fs).hasField "eocc100" &&
          (DCarArg.dict fs).hasField "eocc050" &&
          (DCarArg.dict fs).hasField "norm")) = true →
      validateDCar (.dict fs) = .error "dcar: unexpected fields") ∧
    runWithChecks (.error em) run = .error em := by
  refine ⟨?_, ?_, ?_, ?_, rfl⟩
  · intro h
    simp only [checkUnits, if_pos h]
  · intro h1 h2
    simp only [checkUnits, if_neg h1, if_pos h2]
  · intro hp hs
    simp only [mkCouplerSpec, if_neg hp, if_neg hs]
  · intro h
    simp only [validateDCar, if_neg h]

/-- C9 witness: concrete configuration errors — two specs with
differing force units; an EOCC coupler with preload 100 and stroke 1/2
(so `stroke + dx1 = 0.4843 < x1 = 0.61`); a dict grouping limit with an
unrecognized field `foo`; and the short-circuited driver. -/
theorem config_errors_surface_witness :
    checkUnits [{ type := "a", Funits := "kips", Xunits := "in" },
        { type := "b", Funits := "N", Xunits := "in" }] =
      .error "Force units not common" ∧
    mkCouplerSpec 100 (1/2) = .error "stroke is too small" ∧
    validateDCar (.dict [("foo", 1)]) = .error "dcar: unexpected fields" ∧
    runWithChecks (.error "stroke is too small") (fun _ => stReject) =
      .error "stroke is too small" := by
  have h := config_errors_surface
    [{ type := "a", Funits := "kips", Xunits := "in" },
     { type := "b", Funits := "N", Xunits := "in" }]
    100 (1/2) [("foo", 1)] "stroke is too small" (fun _ => stReject)
  exact ⟨h.1 (by decide), h.2.2.1 (by decide) (by decide),
    h.2.2.2.1 (by decide), h.2.2.2.2⟩

/-! ## defineCarGroups.py — the car-group partitioner

`cargroup` is the list of 1-based indices of the last vehicle in each
group.  The grouping limit `dcar` is one of the three recognized shapes
(the validation of malformed inputs is `validateDCar` above); coupler
type indices are 1 = normal, 2 = EOCC 100 kip, 3 = EOCC 50 kip. -/

/-- A validated grouping limit (`defineCarGroups.py` lines 6-16). -/
inductive DCar where
  /-- scalar limit, independent of coupler type -/
  | num (d : ℕ)
  /-- `{eocc, norm}` dict -/
  | dict2 (eocc norm : ℕ)
  /-- `{eocc100, eocc050, norm}` dict -/
  | dict3 (eocc100 eocc050 norm : ℕ)

/-- Coupler-type mapping applied before the scan
(`defineCarGroups.py` lines 62-72): the three-field dict keeps types
1/2/3 apart, the two-field dict merges 2 and 3, a scalar merges all. -/
def ctypMap (dcar : DCar) (ct : ℕ) : ℕ :=
  match dcar with
  | .dict3 _ _ _ => ct
  | .dict2 _ _ => if ct > 1 then 2 else ct
  | .num _ => if ct > 0 then 1 else ct

/-- Per-(mapped)-type group-size limit (`defineCarGroups.py`
lines 62-79): scalar `dcar` applies to everything, dicts via
`dcarVec[ctyp-1]` with `dcarVec = [norm, eocc]` or
`[norm, eocc100, eocc050]`. -/
def limitOf (dcar : DCar) (ct : ℕ) : ℕ :=
  match dcar with
  | .num d => d
  | .dict2 eocc norm => [norm, eocc].getD (ct - 1) 0
  | .dict3 e100 e050 norm => [norm, e100, e050].getD (ct - 1) 0

/-- State of the scan loop of `defineCarGroups.py` lines 57-88. -/
structure ScanState where
  /-- current group size counter `k` -/
  k : ℕ
  /-- current group count `kg` -/
  kg : ℕ
  /-- boundary list built so far -/
  cargroup : List ℕ

/-- One iteration of the scan loop (`defineCarGroups.py` lines 74-88)
for vehicle index `i` (1-based python loop variable): start a new group
when the current group would exceed its size limit or the mapped
coupler type changes, then record `i+1` as the current group's last
vehicle (appending or overwriting the last entry). -/
def scanStep (dcar : DCar) (ctyp : ℕ → ℕ) (st : ScanState) (i : ℕ) :
    ScanState :=
  let limit := limitOf dcar (ctyp (i - 1))
  let st1 := if st.k + 1 > limit ∨ ctyp (i - 1) ≠ ctyp i then
      { st with kg := st.kg + 1, k := 0 } else st
  let st2 := { st1 with k := st1.k + 1 }
  if st2.kg > st2.cargroup.length then
    { st2 with cargroup := st2.cargroup ++ [i + 1] }
  else
    { st2 with cargroup := st2.cargroup.set (st2.kg - 1) (i + 1) }

/-- The scan loop folded over `i = 1 .. n0-1` from the initial state
`k = 1`, `kg = 1`, `cargroup = [1]` (`defineCarGroups.py`
lines 57-60). -/
def scanCar (dcar : DCar) (ctyp : ℕ → ℕ) (n0 : ℕ) : ScanState :=
  (List.range' 1 (n0 - 1)).foldl (scanStep dcar ctyp) ⟨1, 1, [1]⟩

/-- The scan result trimmed to `kg` entries (`defineCarGroups.py`
line 91: `cargroup = cargroup[:kg]`). -/
def scanCargroup (dcar : DCar) (ctyp : ℕ → ℕ) (n0 : ℕ) : List ℕ :=
  (scanCar dcar ctyp n0).cargroup.take (scanCar dcar ctyp n0).kg

/-- The `0`-prepended boundary sequence `cg0` (`defineCarGroups.py`
line 95), read by index. -/
def cg0getD (r : List ℕ) (q : ℕ) : ℕ := (0 :: r).getD q 0

/-- Membership phrased by index values (used by the invariants; see
`notIn_iff`). -/
def NotIn (r : List ℕ) (j : ℕ) : Prop :=
  ∀ q, q < r.length → r.getD q 0 ≠ j

theorem notIn_iff (r : List ℕ) (j : ℕ) : NotIn r j ↔ j ∉ r := by
  constructor
  · intro h hmem
    obtain ⟨q, hq, heq⟩ := List.mem_iff_getElem.mp hmem
    exact h q hq (by rw [List.getD_eq_getElem r 0 hq]; exact heq)
  · intro h q hq hEq
    apply h
    rw [List.getD_eq_getElem r 0 hq] at hEq
    exact hEq ▸ List.getElem_mem hq

/-- The partition invariant claimed for `defineCarGroups`: nonempty
boundary list whose `0`-prepended index sequence is strictly
increasing with last entry `n0`, every group no larger than the limit
of its coupler type (the mapped type of its last vehicle), and no
group mixing mapped coupler types (every interior non-boundary vehicle
junction joins equal types). -/
def PartOK (dcar : DCar) (ctyp : ℕ → ℕ) (n0 : ℕ) (r : List ℕ) : Prop :=
  r ≠ [] ∧
  r.getLastD 0 = n0 ∧
  (∀ q, q + 1 ≤ r.length →
    cg0getD r q < cg0getD r (q + 1) ∧
    cg0getD r (q + 1) - cg0getD r q ≤
      limitOf dcar (ctyp (cg0getD r (q + 1) - 1))) ∧
  (∀ j, 1 ≤ j → j < n0 → j ∉ r → ctyp (j - 1) = ctyp j)

/-! ### Index-level list helpers -/

theorem getD_set_self (l : List ℕ) (n v : ℕ) (h : n < l.length) :
    (l.set n v).getD n 0 = v := by
  simp [List.getD_eq_getElem?_getD, List.getElem?_set_self, h]

theorem getD_set_ne (l : List ℕ) (n m v : ℕ) (h : n ≠ m) :
    (l.set n v).getD m 0 = l.getD m 0 := by
  simp [List.getD_eq_getElem?_getD, List.getElem?_set_ne h]

theorem getD_append_lt (l l' : List ℕ) (q : ℕ) (h : q < l.length) :
    (l ++ l').getD q 0 = l.getD q 0 := by
  simp [List.getD_eq_getElem?_getD, List.getElem?_append, h]

theorem getD_append_len (l : List ℕ) (x : ℕ) :
    (l ++ [x]).getD l.length 0 = x := by
  simp [List.getD_eq_getElem?_getD]

theorem getLastD_eq_getD (l : List ℕ) :
    l.getLastD 0 = l.getD (l.length - 1) 0 := by
  rw [List.getLastD_eq_getLast?, List.getLast?_eq_getElem?]
  simp [List.getD_eq_getElem?_getD]

/-! ### Scan-phase invariant -/

/-- Invariant of the scan loop after processing python loop indices
`1 .. T`: `cargroup` has exactly `kg` entries, ends at vehicle `T+1`,
its boundary sequence is strictly increasing with per-group sizes
within the type limits (the still-open last group included), `k` is
the size of the open group, and all non-boundary vehicle junctions up
to `T` join equal mapped types. -/
def ScanInv (dcar : DCar) (ctyp : ℕ → ℕ) (T : ℕ) (st : ScanState) : Prop :=
  st.cargroup.length = st.kg ∧
  1 ≤ st.kg ∧
  st.cargroup.getD (st.kg - 1) 0 = T + 1 ∧
  st.k + cg0getD st.cargroup (st.kg - 1) = T + 1 ∧
  (∀ q, q + 1 ≤ st.kg →
    cg0getD st.cargroup q < cg0getD st.cargroup (q + 1) ∧
    cg0getD st.cargroup (q + 1) - cg0getD st.cargroup q ≤
      limitOf dcar (ctyp (cg0getD st.cargroup (q + 1) - 1))) ∧
  (∀ j, 1 ≤ j → j ≤ T → NotIn st.cargroup j → ctyp (j - 1) = ctyp j)

theorem scanInv_init (dcar : DCar) (ctyp : ℕ → ℕ)
    (hlim0 : 1 ≤ limitOf dcar (ctyp 0)) :
    ScanInv dcar ctyp 0 ⟨1, 1, [1]⟩ := by
  refine ⟨rfl, le_refl 1, rfl, rfl, ?_, ?_⟩
  · intro q hq
    have hq' : q + 1 ≤ 1 := hq
    have hq0 : q = 0 := by omega
    subst hq0
    exact ⟨Nat.zero_lt_one, hlim0⟩
  · intro j h1 h2 _
    have h2' : j ≤ 0 := h2
    omega

theorem scanStep_inv (dcar : DCar) (ctyp : ℕ → ℕ) (i : ℕ) (hi : 1 ≤ i)
    (st : ScanState) (hlim_i : 1 ≤ limitOf dcar (ctyp i))
    (hinv : ScanInv dcar ctyp (i - 1) st) :
    ScanInv dcar ctyp i (scanStep dcar ctyp st i) := by
  obtain ⟨hlen, hkg1, hlast, hk, hlinks, hhomog⟩ := hinv
  have hTsub : i - 1 + 1 = i := by omega
  rw [hTsub] at hlast hk
  by_cases hg : st.k + 1 > limitOf dcar (ctyp (i - 1)) ∨ ctyp (i - 1) ≠ ctyp i
  · -- a new group is started and `i+1` is appended
    have hstep : scanStep dcar ctyp st i =
        ⟨1, st.kg + 1, st.cargroup ++ [i + 1]⟩ := by
      simp only [scanStep, if_pos hg]
      rw [if_pos (by simp [hlen])]
    rw [hstep]
    have hcgq : ∀ t, t ≤ st.kg →
        cg0getD (st.cargroup ++ [i + 1]) t = cg0getD st.cargroup t := by
      intro t ht
      show ((0 :: st.cargroup) ++ [i + 1]).getD t 0 = _
      exact getD_append_lt _ _ _ (by simp [hlen]; omega)
    have hcgtop : cg0getD (st.cargroup ++ [i + 1]) (st.kg + 1) = i + 1 := by
      show ((0 :: st.cargroup) ++ [i + 1]).getD (st.kg + 1) 0 = i + 1
      have : (0 :: st.cargroup).length = st.kg + 1 := by simp [hlen]
      rw [← this]
      exact getD_append_len _ _
    have hpen : cg0getD st.cargroup st.kg = i := by
      show (0 :: st.cargroup).getD st.kg 0 = i
      have : (0 :: st.cargroup).getD st.kg 0 = st.cargroup.getD (st.kg - 1) 0 := by
        have hkg : st.kg = (st.kg - 1) + 1 := by omega
        rw [hkg]
        rfl
      rw [this, hlast]
    refine ⟨by simp [hlen], by show 1 ≤ st.kg + 1; omega, ?_, ?_, ?_, ?_⟩
    · show (st.cargroup ++ [i + 1]).getD (st.kg + 1 - 1) 0 = i + 1
      have h6 : st.kg + 1 - 1 = st.cargroup.length := by omega
      rw [h6]
      exact getD_append_len _ _
    · show 1 + cg0getD (st.cargroup ++ [i + 1]) (st.kg + 1 - 1) = i + 1
      have h6 : st.kg + 1 - 1 = st.kg := by omega
      rw [h6, hcgq st.kg (le_refl _), hpen]
      omega
    · intro q hq
      have hq2 : q + 1 ≤ st.kg + 1 := hq
      rcases Nat.lt_or_ge (q + 1) (st.kg + 1) with hlt | hge
      · have hq' : q + 1 ≤ st.kg := by omega
        rw [hcgq q (by omega), hcgq (q + 1) hq']
        exact hlinks q hq'
      · have hq0 : q = st.kg := by omega
        subst hq0
        rw [hcgtop, hcgq st.kg (le_refl _), hpen]
        refine ⟨by omega, ?_⟩
        have h6 : i + 1 - i = 1 := by omega
        have h7 : i + 1 - 1 = i := by omega
        rw [h6, h7]
        exact hlim_i
    · intro j h1 h2 hni
      have hnotin : NotIn st.cargroup j := by
        intro q hq
        have h8 := hni q (by simp [hlen]; omega)
        rwa [getD_append_lt _ _ _ hq] at h8
      rcases Nat.lt_or_ge j i with hj | hj
      · exact hhomog j h1 (by omega) hnotin
      · exfalso
        have h9 := hnotin (st.kg - 1) (by omega)
        rw [hlast] at h9
        omega
  · -- the current group is extended: replace the last entry by `i+1`
    have hg' := hg
    push_neg at hg'
    obtain ⟨hsz, hty⟩ := hg'
    have hkglen : ¬ st.kg > st.cargroup.length := by omega
    have hstep : scanStep dcar ctyp st i =
        ⟨st.k + 1, st.kg, st.cargroup.set (st.kg - 1) (i + 1)⟩ := by
      simp only [scanStep, if_neg hg]
      rw [if_neg hkglen]
    rw [hstep]
    have hset0 : (0 : ℕ) :: st.cargroup.set (st.kg - 1) (i + 1) =
        (0 :: st.cargroup).set (st.kg - 1 + 1) (i + 1) := rfl
    have hkgeq : st.kg - 1 + 1 = st.kg := by omega
    have hcgq : ∀ t, t ≠ st.kg →
        cg0getD (st.cargroup.set (st.kg - 1) (i + 1)) t =
          cg0getD st.cargroup t := by
      intro t ht
      show ((0 : ℕ) :: st.cargroup.set (st.kg - 1) (i + 1)).getD t 0 = _
      rw [hset0, hkgeq]
      exact getD_set_ne _ _ _ _ (fun h => ht h.symm)
    have hcgtop : cg0getD (st.cargroup.set (st.kg - 1) (i + 1)) st.kg = i + 1 := by
      show ((0 : ℕ) :: st.cargroup.set (st.kg - 1) (i + 1)).getD st.kg 0 = i + 1
      rw [hset0, hkgeq]
      exact getD_set_self _ _ _ (by rw [List.length_cons, hlen]; omega)
    refine ⟨by simp [hlen], hkg1, ?_, ?_, ?_, ?_⟩
    · show (st.cargroup.set (st.kg - 1) (i + 1)).getD (st.kg - 1) 0 = i + 1
      exact getD_set_self _ _ _ (by omega)
    · show st.k + 1 +
        cg0getD (st.cargroup.set (st.kg - 1) (i + 1)) (st.kg - 1) = i + 1
      rw [hcgq (st.kg - 1) (by omega)]
      omega
    · intro q hq
      have hq2 : q + 1 ≤ st.kg := hq
      rcases Nat.lt_or_ge (q + 1) st.kg with hlt | hge
      · rw [hcgq q (by omega), hcgq (q + 1) (by omega)]
        exact hlinks q (by omega)
      · have hq0 : q = st.kg - 1 := by omega
        subst hq0
        rw [hkgeq, hcgtop, hcgq (st.kg - 1) (by omega)]
        refine ⟨by omega, ?_⟩
        have h7 : i + 1 - 1 = i := by omega
        rw [h7, ← hty]
        omega
    · intro j h1 h2 hni
      rcases Nat.lt_or_ge j i with hj | hj
      · apply hhomog j h1 (by omega)
        intro q hq
        rcases eq_or_ne q (st.kg - 1) with hqe | hqn
        · rw [hqe, hlast]
          omega
        · have h8 := hni q (by simpa using hq)
          rwa [getD_set_ne _ _ _ _ (fun h => hqn h.symm)] at h8
      · have hji : j = i := by omega
        rw [hji]
        exact hty

theorem scanCar_aux (dcar : DCar) (ctyp : ℕ → ℕ) (n0 : ℕ)
    (hlim : ∀ j, j < n0 → 1 ≤ limitOf dcar (ctyp j)) (h1 : 1 ≤ n0) :
    ∀ m, m ≤ n0 - 1 →
      ScanInv dcar ctyp m
        ((List.range' 1 m).foldl (scanStep dcar ctyp) ⟨1, 1, [1]⟩)
  | 0, _ => scanInv_init dcar ctyp (hlim 0 (by omega))
  | m + 1, hm => by
    have hconcat : List.range' 1 (m + 1) = List.range' 1 m ++ [1 + m] := by
      simpa using @List.range'_concat 1 1 m
    have h1m : 1 + m = m + 1 := by omega
    rw [hconcat, h1m, List.foldl_append, List.foldl_cons, List.foldl_nil]
    exact scanStep_inv dcar ctyp (m + 1) (by omega) _
      (hlim (m + 1) (by omega))
      (scanCar_aux dcar ctyp n0 hlim h1 m (by omega))

/-- The scan phase of `defineCarGroups` produces a partition satisfying
the claimed invariant. -/
theorem scanCargroup_partOK (dcar : DCar) (ctyp : ℕ → ℕ) (n0 : ℕ)
    (h1 : 1 ≤ n0) (hlim : ∀ j, j < n0 → 1 ≤ limitOf dcar (ctyp j)) :
    PartOK dcar ctyp n0 (scanCargroup dcar ctyp n0) := by
  have hinv : ScanInv dcar ctyp (n0 - 1) (scanCar dcar ctyp n0) :=
    scanCar_aux dcar ctyp n0 hlim h1 (n0 - 1) (le_refl _)
  obtain ⟨hlen, hkg1, hlast, hk, hlinks, hhomog⟩ := hinv
  have htake : scanCargroup dcar ctyp n0 = (scanCar dcar ctyp n0).cargroup :=
    List.take_of_length_le (le_of_eq hlen)
  have hn : n0 - 1 + 1 = n0 := by omega
  rw [hn] at hlast hk
  rw [htake]
  refine ⟨?_, ?_, ?_, ?_⟩
  · intro hnil
    rw [hnil] at hlen
    simp at hlen
    omega
  · rw [getLastD_eq_getD, hlen, hlast]
  · intro q hq
    rw [hlen] at hq
    exact hlinks q hq
  · intro j hj1 hj2 hmem
    exact hhomog j hj1 (by omega) ((notIn_iff _ _).mpr hmem)

/-! ### The size-equalization pass (`-equalizeSize`) -/

/-- The rounded `j`-th point of
`np.round(np.linspace(a, b, g+1))` (`defineCarGroups.py` line 110):
`g` segments from `a` to `b`. -/
def runVal (a b g j : ℕ) : ℤ :=
  pyRound ((a : ℚ) + j * (((b : ℚ) - a) / g))

/-- The per-run boundary redistribution (`defineCarGroups.py`
lines 110-112): positions `i1 .. i2-1` of `acc` receive the rounded
linspace points between `cg0[i1]` and `cg0[i2+1]`. -/
def eqSetRun (cg0 : List ℕ) (i1 i2 : ℕ) (acc : List ℕ) : List ℕ :=
  (List.range' i1 (i2 - i1)).foldl (fun l j =>
    l.set j (runVal (cg0.getD i1 0) (cg0.getD (i2 + 1) 0) (i2 - i1 + 1)
      (j - i1 + 1)).toNat) acc

/-- Inner scan of the run-end search (`defineCarGroups.py`
lines 100-107): the first index `j ≥ i1+1` whose group has a different
coupler type, minus one; or the final index when no type change
follows. -/
def findRunEndGo (ctyp : ℕ → ℕ) (r : List ℕ) (τ : ℕ) : ℕ → ℕ → ℕ
  | 0, _ => r.length - 1
  | fuel + 1, j =>
    if j < r.length then
      if ctyp (r.getD j 0 - 1) ≠ τ then j - 1
      else findRunEndGo ctyp r τ fuel (j + 1)
    else r.length - 1

/-- Run-end search from run start `i1`. -/
def findRunEnd (ctyp : ℕ → ℕ) (r : List ℕ) (i1 : ℕ) : ℕ :=
  findRunEndGo ctyp r (ctyp (r.getD i1 0 - 1)) (r.length - (i1 + 1)) (i1 + 1)

/-- The while-loop over runs (`defineCarGroups.py` lines 93-115): the
run boundaries are read from the ORIGINAL `cargroup` (and `cg0`), the
redistributed values written into the accumulator copy. -/
def eqLoop (ctyp : ℕ → ℕ) (r cg0 : List ℕ) : ℕ → ℕ → List ℕ → List ℕ
  | 0, _, acc => acc
  | fuel + 1, i, acc =>
    if i < r.length - 1 then
      eqLoop ctyp r cg0 fuel (findRunEnd ctyp r i + 1)
        (eqSetRun cg0 i (findRunEnd ctyp r i) acc)
    else acc

/-- The whole `-equalizeSize` post-pass. -/
def equalizeCargroup (ctyp : ℕ → ℕ) (r : List ℕ) : List ℕ :=
  eqLoop ctyp r (0 :: r) r.length 0 r

/-- `defineCarGroups` (grouping portion, `defineCarGroups.py`
lines 55-115; the validation of malformed `dcar` shapes is
`validateDCar`): map the coupler types, scan, and optionally equalize
group sizes. -/
def defineCarGroups (dcar : DCar) (cti : List ℕ) (equalizeSize : Bool) :
    List ℕ :=
  let ctyp : ℕ → ℕ := fun j => ctypMap dcar (cti.getD j 0)
  let cargroup := scanCargroup dcar ctyp cti.length
  if equalizeSize then equalizeCargroup ctyp cargroup else cargroup

/-! ### Bounds on `pyRound` -/

theorem pyRound_eq (q : ℚ) : pyRound q =
    if q - ⌊q⌋ < 1/2 then ⌊q⌋
    else if 1/2 < q - ⌊q⌋ then ⌊q⌋ + 1
    else if ⌊q⌋ % 2 = 0 then ⌊q⌋ else ⌊q⌋ + 1 := by
  simp only [pyRound, ratFloor_eq_floor]

theorem pyRound_intCast (z : ℤ) : pyRound (z : ℚ) = z := by
  rw [pyRound_eq]
  simp

theorem pyRound_natCast (n : ℕ) : pyRound ((n : ℕ) : ℚ) = (n : ℤ) := by
  rw [← Int.cast_natCast, pyRound_intCast]

theorem pyRound_le (q : ℚ) : (pyRound q : ℚ) ≤ q + 1/2 := by
  have h1 : (⌊q⌋ : ℚ) ≤ q := Int.floor_le q
  have h2 : q < (⌊q⌋ : ℚ) + 1 := Int.lt_floor_add_one q
  rw [pyRound_eq]
  split_ifs with hA hB hC <;> push_cast <;> linarith

theorem le_pyRound (q : ℚ) : q - 1/2 ≤ (pyRound q : ℚ) := by
  have h1 : (⌊q⌋ : ℚ) ≤ q := Int.floor_le q
  have h2 : q < (⌊q⌋ : ℚ) + 1 := Int.lt_floor_add_one q
  rw [pyRound_eq]
  split_ifs with hA hB hC <;> push_cast <;> linarith

/-! ### Properties of the rounded linspace points of one run -/

theorem runVal_zero (a b g : ℕ) : runVal a b g 0 = a := by
  unfold runVal
  simp only [Nat.cast_zero, zero_mul, add_zero]
  exact pyRound_natCast a

theorem runVal_last (a b g : ℕ) (hg : 1 ≤ g) : runVal a b g g = b := by
  unfold runVal
  have hg0 : (g : ℚ) ≠ 0 := by positivity
  have h : (a : ℚ) + (g : ℚ) * (((b : ℚ) - a) / g) = ((b : ℕ) : ℚ) := by
    field_simp
  rw [h, pyRound_natCast]

theorem runVal_step (a b g L : ℕ) (hg : 1 ≤ g) (hlow : a + g ≤ b)
    (hhigh : b ≤ a + g * L) (j : ℕ) (hj : j < g) :
    runVal a b g j < runVal a b g (j + 1) ∧
      runVal a b g (j + 1) - runVal a b g j ≤ L := by
  have hg0 : (0 : ℚ) < g := by positivity
  set s : ℚ := ((b : ℚ) - a) / g with hs
  have hs1 : 1 ≤ s := by
    rw [hs, le_div_iff hg0]
    push_cast
    have : (a : ℚ) + g ≤ b := by exact_mod_cast hlow
    linarith
  have hsL : s ≤ L := by
    rw [hs, div_le_iff hg0]
    push_cast
    have : (b : ℚ) ≤ a + g * L := by exact_mod_cast hhigh
    linarith
  by_cases hint : ∃ c : ℤ, s = (c : ℚ)
  · obtain ⟨c, hc⟩ := hint
    have hc1 : (1 : ℤ) ≤ c := by exact_mod_cast hc ▸ hs1
    have hcL : c ≤ (L : ℤ) := by exact_mod_cast hc ▸ hsL
    have hpt : ∀ t : ℕ, runVal a b g t = (a : ℤ) + t * c := by
      intro t
      unfold runVal
      rw [← hs, hc]
      have h : (a : ℚ) + t * (c : ℚ) = (((a : ℤ) + t * c : ℤ) : ℚ) := by
        push_cast
        ring
      rw [h, pyRound_intCast]
    rw [hpt j, hpt (j + 1)]
    constructor
    · push_cast
      nlinarith
    · push_cast
      have h6 : (a : ℤ) + ((j : ℤ) + 1) * c - ((a : ℤ) + (j : ℤ) * c) = c := by
        ring
      rw [h6]
      exact hcL
  · have hs1' : 1 < s := lt_of_le_of_ne hs1 (by
      intro h
      exact hint ⟨1, by rw [← h]; norm_num⟩)
    have hsL' : s < L := lt_of_le_of_ne hsL (by
      intro h
      exact hint ⟨L, by rw [h]; norm_num⟩)
    have hup : (runVal a b g (j + 1) : ℚ) ≤
        (a : ℚ) + ((j + 1 : ℕ) : ℚ) * s + 1/2 := by
      unfold runVal
      rw [← hs]
      exact pyRound_le _
    have hup' : ((a : ℚ) + (j : ℚ) * s) - 1/2 ≤ (runVal a b g j : ℚ) := by
      unfold runVal
      rw [← hs]
      exact le_pyRound _
    have hlo : (runVal a b g j : ℚ) ≤ (a : ℚ) + (j : ℚ) * s + 1/2 := by
      unfold runVal
      rw [← hs]
      exact pyRound_le _
    have hlo' : ((a : ℚ) + ((j + 1 : ℕ) : ℚ) * s) - 1/2 ≤
        (runVal a b g (j + 1) : ℚ) := by
      unfold runVal
      rw [← hs]
      exact le_pyRound _
    push_cast at hup hup' hlo hlo'
    constructor
    · have hgap : (runVal a b g j : ℚ) < (runVal a b g (j + 1) : ℚ) := by
        have : (a : ℚ) + (j + 1) * s = (a : ℚ) + j * s + s := by ring
        nlinarith
      exact_mod_cast hgap
    · have hgap : ((runVal a b g (j + 1) - runVal a b g j : ℤ) : ℚ) <
          (L : ℚ) + 1 := by
        push_cast
        nlinarith
      have : runVal a b g (j + 1) - runVal a b g j < (L : ℤ) + 1 := by
        exact_mod_cast hgap
      omega

/-- The rounded linspace points stay within `[a, b]`, strictly above
`a` from index 1 on. -/
theorem runVal_bounds (a b g L : ℕ) (hg : 1 ≤ g) (hlow : a + g ≤ b)
    (hhigh : b ≤ a + g * L) :
    ∀ j, j ≤ g → (a : ℤ) ≤ runVal a b g j ∧ runVal a b g j ≤ b ∧
      (1 ≤ j → (a : ℤ) < runVal a b g j) := by
  have hmono : ∀ j, j < g → runVal a b g j < runVal a b g (j + 1) :=
    fun j hj => (runVal_step a b g L hg hlow hhigh j hj).1
  have hlower : ∀ j, j ≤ g → ((a : ℤ) ≤ runVal a b g j ∧
      (1 ≤ j → (a : ℤ) < runVal a b g j)) := by
    intro j
    induction j with
    | zero =>
      intro _
      rw [runVal_zero]
      exact ⟨le_refl _, by omega⟩
    | succ j ih =>
      intro hj
      have h1 := hmono j (by omega)
      have h2 := (ih (by omega)).1
      exact ⟨by omega, fun _ => by omega⟩
  have hupper : ∀ d j, j + d = g → runVal a b g j ≤ (b : ℤ) := by
    intro d
    induction d with
    | zero =>
      intro j hj0
      have hjg : j = g := by omega
      rw [hjg, runVal_last a b g hg]
    | succ d ih =>
      intro j hj0
      have h1 := hmono j (by omega)
      have h2 := ih (j + 1) (by omega)
      omega
  intro j hj
  exact ⟨(hlower j hj).1, hupper (g - j) j (by omega), (hlower j hj).2⟩

/-! ### Facts about the run-end search -/

theorem findRunEndGo_spec (ctyp : ℕ → ℕ) (r : List ℕ) (τ : ℕ) (i1 : ℕ)
    (hi1 : i1 + 2 ≤ r.length) :
    ∀ fuel j, i1 + 1 ≤ j → r.length ≤ j + fuel →
      (∀ q, i1 ≤ q → q < j → ctyp (r.getD q 0 - 1) = τ) →
      i1 ≤ findRunEndGo ctyp r τ fuel j ∧
      findRunEndGo ctyp r τ fuel j ≤ r.length - 1 ∧
      (∀ q, i1 ≤ q → q ≤ findRunEndGo ctyp r τ fuel j →
        ctyp (r.getD q 0 - 1) = τ)
  | 0, j, hj, hfuel, hall => by
    simp only [findRunEndGo]
    refine ⟨by omega, le_refl _, ?_⟩
    intro q hq1 hq2
    exact hall q hq1 (by omega)
  | fuel + 1, j, hj, hfuel, hall => by
    simp only [findRunEndGo]
    split_ifs with h1 h2
    · refine ⟨by omega, by omega, ?_⟩
      intro q hq1 hq2
      exact hall q hq1 (by omega)
    · push_neg at h2
      exact findRunEndGo_spec ctyp r τ i1 hi1 fuel (j + 1) (by omega)
        (by omega) (by
          intro q hq1 hq2
          rcases Nat.lt_or_ge q j with h | h
          · exact hall q hq1 h
          · have hqj : q = j := by omega
            rw [hqj]
            exact h2)
    · refine ⟨by omega, le_refl _, ?_⟩
      intro q hq1 hq2
      exact hall q hq1 (by omega)

theorem findRunEnd_spec (ctyp : ℕ → ℕ) (r : List ℕ) (i1 : ℕ)
    (hi1 : i1 + 2 ≤ r.length) :
    i1 ≤ findRunEnd ctyp r i1 ∧ findRunEnd ctyp r i1 ≤ r.length - 1 ∧
    (∀ q, i1 ≤ q → q ≤ findRunEnd ctyp r i1 →
      ctyp (r.getD q 0 - 1) = ctyp (r.getD i1 0 - 1)) := by
  apply findRunEndGo_spec ctyp r _ i1 hi1 (r.length - (i1 + 1)) (i1 + 1)
    (le_refl _) (by omega)
  intro q hq1 hq2
  have hqi : q = i1 := by omega
  rw [hqi]

/-! ### Boundary-sequence arithmetic derived from `PartOK` -/

theorem cg_succ (r : List ℕ) (q : ℕ) : cg0getD r (q + 1) = r.getD q 0 := rfl

theorem cg_strictMono (r : List ℕ)
    (hinc : ∀ q, q + 1 ≤ r.length → cg0getD r q < cg0getD r (q + 1)) :
    ∀ d q1, q1 + d ≤ r.length → 0 < d → cg0getD r q1 < cg0getD r (q1 + d) := by
  intro d
  induction d with
  | zero => omega
  | succ d ih =>
    intro q1 hq hd
    rcases Nat.eq_zero_or_pos d with h0 | h0
    · rw [h0]
      exact hinc q1 (by omega)
    · have h1 := ih q1 (by omega) h0
      have h2 := hinc (q1 + d) (by omega)
      have h3 : q1 + (d + 1) = q1 + d + 1 := by omega
      rw [h3]
      omega

theorem cg_gap_lower (r : List ℕ)
    (hinc : ∀ q, q + 1 ≤ r.length → cg0getD r q < cg0getD r (q + 1)) :
    ∀ d q1, q1 + d ≤ r.length →
      cg0getD r q1 + d ≤ cg0getD r (q1 + d) := by
  intro d
  induction d with
  | zero => intro q1 _; simp
  | succ d ih =>
    intro q1 hq
    have h1 := ih q1 (by omega)
    have h2 := hinc (q1 + d) (by omega)
    have h3 : q1 + (d + 1) = q1 + d + 1 := by omega
    rw [h3]
    omega

theorem cg_gap_upper (r : List ℕ) (L : ℕ) :
    ∀ d i1, i1 + d ≤ r.length →
      (∀ q, i1 ≤ q → q < i1 + d →
        cg0getD r (q + 1) - cg0getD r q ≤ L ∧
          cg0getD r q < cg0getD r (q + 1)) →
      cg0getD r (i1 + d) ≤ cg0getD r i1 + d * L := by
  intro d
  induction d with
  | zero => intro i1 _ _; simp
  | succ d ih =>
    intro i1 hq hbnd
    have h1 := ih i1 (by omega) (fun q hqa hqb => hbnd q hqa (by omega))
    have h2 := hbnd (i1 + d) (by omega) (by omega)
    have h3 : i1 + (d + 1) = i1 + d + 1 := by omega
    rw [h3]
    have h4 : (d + 1) * L = d * L + L := by ring
    omega

theorem between_notIn (r : List ℕ)
    (hinc : ∀ q, q + 1 ≤ r.length → cg0getD r q < cg0getD r (q + 1))
    (q j : ℕ) (hq : q + 1 ≤ r.length) (hlo : cg0getD r q < j)
    (hhi : j < cg0getD r (q + 1)) : j ∉ r := by
  intro hmem
  obtain ⟨qq, hqq, heq⟩ := List.mem_iff_getElem.mp hmem
  have hval : cg0getD r (qq + 1) = j := by
    rw [cg_succ, List.getD_eq_getElem r 0 hqq]
    exact heq
  rcases Nat.lt_or_ge qq q with h | h
  · -- qq + 1 ≤ q: cg (qq+1) ≤ cg q < j, contradiction
    rcases Nat.eq_or_lt_of_le (by omega : qq + 1 ≤ q) with he | hlt
    · rw [he] at hval
      omega
    · have := cg_strictMono r hinc (q - (qq + 1)) (qq + 1) (by omega) (by omega)
      have hh : qq + 1 + (q - (qq + 1)) = q := by omega
      rw [hh] at this
      omega
  · -- qq ≥ q: cg (qq+1) ≥ cg (q+1) > j, contradiction
    rcases Nat.eq_or_lt_of_le h with he | hlt
    · rw [← he] at hval
      omega
    · have := cg_strictMono r hinc (qq - q) (q + 1) (by omega) (by omega)
      have hh : q + 1 + (qq - q) = qq + 1 := by omega
      rw [hh] at this
      omega

theorem cg_le_n0 (dcar : DCar) (ctyp : ℕ → ℕ) (n0 : ℕ) (r : List ℕ)
    (hp : PartOK dcar ctyp n0 r) :
    ∀ t, t ≤ r.length → cg0getD r t ≤ n0 := by
  obtain ⟨hne, hlast, hlinks, _⟩ := hp
  have hlen1 : 1 ≤ r.length := List.length_pos.mpr hne
  have htop : cg0getD r r.length = n0 := by
    rw [← hlast, getLastD_eq_getD]
    show (0 :: r).getD r.length 0 = r.getD (r.length - 1) 0
    have h : r.length = r.length - 1 + 1 := by omega
    conv_lhs => rw [h]
    rfl
  intro t ht
  rcases Nat.eq_or_lt_of_le ht with he | hlt
  · rw [he, htop]
  · have := cg_strictMono r (fun q hq => (hlinks q hq).1) (r.length - t) t
      (by omega) (by omega)
    have hh : t + (r.length - t) = r.length := by omega
    rw [hh, htop] at this
    omega

/-- Type constancy inside one group, derived from the claim invariant:
every vehicle of the group ending at boundary `cg (q+1)` has the type
of that group's last vehicle. -/
theorem group_veh (dcar : DCar) (ctyp : ℕ → ℕ) (n0 : ℕ) (r : List ℕ)
    (hp : PartOK dcar ctyp n0 r) (q : ℕ) (hq : q + 1 ≤ r.length) :
    ∀ d v, cg0getD r (q + 1) - v = d → cg0getD r q < v →
      v ≤ cg0getD r (q + 1) → ctyp (v - 1) = ctyp (cg0getD r (q + 1) - 1) := by
  have hinc : ∀ qq, qq + 1 ≤ r.length → cg0getD r qq < cg0getD r (qq + 1) :=
    fun qq hqq => (hp.2.2.1 qq hqq).1
  intro d
  induction d with
  | zero =>
    intro v hd hlo hhi
    have hv : v = cg0getD r (q + 1) := by omega
    rw [hv]
  | succ d ih =>
    intro v hd hlo hhi
    have hvlt : v < cg0getD r (q + 1) := by omega
    have h1 : 1 ≤ v := by omega
    have hvn0 : v < n0 := by
      have := cg_le_n0 dcar ctyp n0 r hp (q + 1) hq
      omega
    have hnotmem : v ∉ r := between_notIn r hinc q v hq hlo hvlt
    have hstep : ctyp (v - 1) = ctyp v := hp.2.2.2 v h1 hvn0 hnotmem
    have hrec := ih (v + 1) (by omega) (by omega) (by omega)
    have hv1 : v + 1 - 1 = v := by omega
    rw [hv1] at hrec
    rw [hstep]
    exact hrec

/-- Locate the group containing vehicle `v` among a contiguous range of
groups. -/
theorem locate_group (r : List ℕ)
    (hinc : ∀ q, q + 1 ≤ r.length → cg0getD r q < cg0getD r (q + 1)) :
    ∀ d q1 v, q1 + d + 1 ≤ r.length → cg0getD r q1 < v →
      v ≤ cg0getD r (q1 + d + 1) →
      ∃ q, q1 ≤ q ∧ q ≤ q1 + d ∧ cg0getD r q < v ∧ v ≤ cg0getD r (q + 1) := by
  intro d
  induction d with
  | zero =>
    intro q1 v hlen hlo hhi
    exact ⟨q1, le_refl _, by omega, hlo, by simpa using hhi⟩
  | succ d ih =>
    intro q1 v hlen hlo hhi
    rcases le_or_lt v (cg0getD r (q1 + 1)) with h | h
    · exact ⟨q1, le_refl _, by omega, hlo, h⟩
    · have hh : q1 + 1 + d + 1 = q1 + (d + 1) + 1 := by omega
      obtain ⟨q, hq1, hq2, hq3, hq4⟩ := ih (q1 + 1) v (by omega) h (by
        rw [hh]
        exact hhi)
      exact ⟨q, by omega, by omega, hq3, hq4⟩

/-- Type constancy across a whole run of same-type groups: every
vehicle strictly after boundary `cg i1` and at most `cg (i2+1)` has the
run's coupler type. -/
theorem run_veh (dcar : DCar) (ctyp : ℕ → ℕ) (n0 : ℕ) (r : List ℕ)
    (hp : PartOK dcar ctyp n0 r) (i1 i2 : ℕ) (hle : i1 ≤ i2)
    (hi2 : i2 + 1 ≤ r.length)
    (hrun : ∀ q, i1 ≤ q → q ≤ i2 →
      ctyp (r.getD q 0 - 1) = ctyp (r.getD i1 0 - 1)) :
    ∀ v, cg0getD r i1 < v → v ≤ cg0getD r (i2 + 1) →
      ctyp (v - 1) = ctyp (r.getD i1 0 - 1) := by
  have hinc : ∀ qq, qq + 1 ≤ r.length → cg0getD r qq < cg0getD r (qq + 1) :=
    fun qq hqq => (hp.2.2.1 qq hqq).1
  intro v hlo hhi
  have hh : i1 + (i2 - i1) + 1 = i2 + 1 := by omega
  obtain ⟨q, hq1, hq2, hq3, hq4⟩ := locate_group r hinc (i2 - i1) i1 v
    (by omega) hlo (by rw [hh]; exact hhi)
  have hgv := group_veh dcar ctyp n0 r hp q (by omega)
    (cg0getD r (q + 1) - v) v rfl hq3 hq4
  rw [hgv, cg_succ]
  exact hrun q hq1 (by omega)

/-! ### Index characterization of the per-run write -/

theorem foldl_set_length (f : ℕ → ℕ) :
    ∀ (l : List ℕ) (acc : List ℕ),
      (l.foldl (fun l' j => l'.set j (f j)) acc).length = acc.length
  | [], _ => rfl
  | x :: xs, acc => by
    rw [List.foldl_cons, foldl_set_length f xs, List.length_set]

theorem foldl_set_range'_getD_out (f : ℕ → ℕ) :
    ∀ (c s : ℕ) (acc : List ℕ) (q : ℕ), q < s ∨ s + c ≤ q →
      ((List.range' s c).foldl (fun l j => l.set j (f j)) acc).getD q 0 =
        acc.getD q 0
  | 0, _, _, _, _ => rfl
  | c + 1, s, acc, q, h => by
    rw [List.range'_succ, List.foldl_cons,
      foldl_set_range'_getD_out f c (s + 1) _ q (by omega)]
    exact getD_set_ne _ _ _ _ (by omega)

theorem foldl_set_range'_getD_in (f : ℕ → ℕ) :
    ∀ (c s : ℕ) (acc : List ℕ) (q : ℕ), s ≤ q → q < s + c →
      q < acc.length →
      ((List.range' s c).foldl (fun l j => l.set j (f j)) acc).getD q 0 = f q
  | 0, s, _, q, h1, h2, _ => by omega
  | c + 1, s, acc, q, h1, h2, h3 => by
    rw [List.range'_succ, List.foldl_cons]
    rcases Nat.eq_or_lt_of_le h1 with he | hlt
    · rw [foldl_set_range'_getD_out f c (s + 1) _ q (by omega), ← he]
      exact getD_set_self _ _ _ (he ▸ h3)
    · exact foldl_set_range'_getD_in f c (s + 1) _ q (by omega) (by omega)
        (by rw [List.length_set]; exact h3)

theorem eqSetRun_length (cg0 : List ℕ) (i1 i2 : ℕ) (acc : List ℕ) :
    (eqSetRun cg0 i1 i2 acc).length = acc.length :=
  foldl_set_length _ _ acc

theorem eqSetRun_getD_out (cg0 : List ℕ) (i1 i2 : ℕ) (acc : List ℕ) (q : ℕ)
    (h : q < i1 ∨ i2 ≤ q) :
    (eqSetRun cg0 i1 i2 acc).getD q 0 = acc.getD q 0 :=
  foldl_set_range'_getD_out _ _ _ acc q (by omega)

theorem eqSetRun_getD_in (cg0 : List ℕ) (i1 i2 : ℕ) (acc : List ℕ) (q : ℕ)
    (h1 : i1 ≤ q) (h2 : q < i2) (h3 : q < acc.length) :
    (eqSetRun cg0 i1 i2 acc).getD q 0 =
      (runVal (cg0.getD i1 0) (cg0.getD (i2 + 1) 0) (i2 - i1 + 1)
        (q - i1 + 1)).toNat :=
  foldl_set_range'_getD_in _ _ _ acc q h1 (by omega) h3

/-! ### Invariant of the equalization loop -/

/-- Invariant of the run loop at run-start index `i`: the accumulator
has the original length, positions from `i-1` on (and the final
position) still hold the original boundaries, all links strictly below
`i` hold for the accumulator, and type continuity holds at all its
non-boundary junctions. -/
def EqInv (dcar : DCar) (ctyp : ℕ → ℕ) (n0 : ℕ) (r : List ℕ) (i : ℕ)
    (acc : List ℕ) : Prop :=
  acc.length = r.length ∧
  (∀ q, q < r.length → i ≤ q + 1 → acc.getD q 0 = r.getD q 0) ∧
  acc.getD (r.length - 1) 0 = r.getD (r.length - 1) 0 ∧
  (∀ q, q + 1 ≤ r.length → q + 1 ≤ i →
    cg0getD acc q < cg0getD acc (q + 1) ∧
    cg0getD acc (q + 1) - cg0getD acc q ≤
      limitOf dcar (ctyp (cg0getD acc (q + 1) - 1))) ∧
  (∀ j, 1 ≤ j → j < n0 → NotIn acc j → ctyp (j - 1) = ctyp j)

theorem eqStep_inv (dcar : DCar) (ctyp : ℕ → ℕ) (n0 : ℕ) (r : List ℕ)
    (hp : PartOK dcar ctyp n0 r) (i : ℕ) (acc : List ℕ)
    (hI : EqInv dcar ctyp n0 r i acc) (hi : i < r.length - 1) :
    EqInv dcar ctyp n0 r (findRunEnd ctyp r i + 1)
      (eqSetRun (0 :: r) i (findRunEnd ctyp r i) acc) := by
  obtain ⟨hW1, hW2, hW5, hW3, hW4⟩ := hI
  have hinc : ∀ q, q + 1 ≤ r.length → cg0getD r q < cg0getD r (q + 1) :=
    fun q hq => (hp.2.2.1 q hq).1
  obtain ⟨hi2lo, hi2hi, hrun⟩ := findRunEnd_spec ctyp r i (by omega)
  set i2 := findRunEnd ctyp r i with hi2def
  set a := cg0getD r i with ha
  set b := cg0getD r (i2 + 1) with hb
  set g := i2 - i + 1 with hg
  set L := limitOf dcar (ctyp (r.getD i 0 - 1)) with hL
  have hlen2 : 2 ≤ r.length := by omega
  have hi2len : i2 + 1 ≤ r.length := by omega
  have hg1 : 1 ≤ g := by omega
  -- the run is homogeneous at the vehicle level
  have hveh : ∀ v, a < v → v ≤ b → ctyp (v - 1) = ctyp (r.getD i 0 - 1) :=
    run_veh dcar ctyp n0 r hp i i2 hi2lo hi2len hrun
  -- bounds on the run total from the original links
  have hlow : a + g ≤ b := by
    have := cg_gap_lower r hinc (i2 + 1 - i) i (by omega)
    have hh : i + (i2 + 1 - i) = i2 + 1 := by omega
    rw [hh] at this
    omega
  have hgg0 : i + g = i2 + 1 := by omega
  have hhigh : b ≤ a + g * L := by
    have := cg_gap_upper r L g i (by omega) (by
      intro q hqa hqb
      have hlnk := hp.2.2.1 q (by omega)
      refine ⟨?_, hlnk.1⟩
      have hty : ctyp (cg0getD r (q + 1) - 1) = ctyp (r.getD i 0 - 1) := by
        rw [cg_succ]
        exact hrun q hqa (by omega)
      calc cg0getD r (q + 1) - cg0getD r q ≤
          limitOf dcar (ctyp (cg0getD r (q + 1) - 1)) := hlnk.2
        _ = L := by rw [hty, hL])
    rw [hgg0] at this
    omega
  have hrb := runVal_bounds a b g L hg1 hlow hhigh
  have hrs := fun j hj => runVal_step a b g L hg1 hlow hhigh j hj
  -- the `0`-prepended values of the accumulator after the run write
  have hVal : ∀ t, i ≤ t → t ≤ i2 + 1 →
      cg0getD (eqSetRun (0 :: r) i i2 acc) t = (runVal a b g (t - i)).toNat := by
    intro t ht1 ht2
    rcases Nat.eq_or_lt_of_le ht1 with hti | hti
    · -- t = i: untouched, keeps the original boundary value a
      have hz : runVal a b g (t - i) = (a : ℤ) := by
        have h0 : t - i = 0 := by omega
        rw [h0, runVal_zero]
      rw [hz]
      rcases Nat.eq_zero_or_pos t with h0 | h0
      · -- i = t = 0: the virtual leading zero
        have ha0 : a = 0 := by
          rw [ha, hti, h0]
          rfl
        rw [h0, ha0]
        rfl
      · obtain ⟨m, hm⟩ : ∃ m, t = m + 1 := ⟨t - 1, by omega⟩
        have hmval : (eqSetRun (0 :: r) i i2 acc).getD m 0 = r.getD m 0 := by
          rw [eqSetRun_getD_out _ _ _ _ _ (Or.inl (by omega)),
            hW2 m (by omega) (by omega)]
        have hra : r.getD m 0 = a := by
          rw [ha, hti, hm]
          rfl
        rw [hm]
        show (eqSetRun (0 :: r) i i2 acc).getD m 0 = ((a : ℕ) : ℤ).toNat
        rw [hmval, hra]
        rfl
    · rcases Nat.eq_or_lt_of_le ht2 with hti2 | hti2
      · -- t = i2 + 1: untouched position i2
        rw [hti2]
        have hgg : i2 + 1 - i = g := by omega
        rw [hgg, runVal_last a b g hg1]
        show (0 :: eqSetRun (0 :: r) i i2 acc).getD (i2 + 1) 0 = _
        show (eqSetRun (0 :: r) i i2 acc).getD i2 0 = _
        rw [eqSetRun_getD_out _ _ _ _ _ (Or.inr (le_refl _)),
          hW2 i2 (by omega) (by omega)]
        have : cg0getD r (i2 + 1) = r.getD i2 0 := rfl
        rw [hb, this]
        omega
      · -- i < t ≤ i2: freshly written position t-1
        show (0 :: eqSetRun (0 :: r) i i2 acc).getD t 0 = _
        have ht' : t = (t - 1) + 1 := by omega
        conv_lhs => rw [ht']
        show (eqSetRun (0 :: r) i i2 acc).getD (t - 1) 0 = _
        rw [eqSetRun_getD_in _ _ _ _ _ (by omega) (by omega)
          (by rw [hW1]; omega)]
        have h1 : (0 :: r).getD i 0 = a := rfl
        have h2 : (0 :: r).getD (i2 + 1) 0 = b := rfl
        have h3 : i2 - i + 1 = g := rfl
        have h4 : t - 1 - i + 1 = t - i := by omega
        rw [h1, h2, h3, h4]
  -- links that lie wholly below `i` keep their old values
  have hKeep : ∀ t, t ≤ i → cg0getD (eqSetRun (0 :: r) i i2 acc) t =
      cg0getD acc t := by
    intro t ht
    rcases Nat.eq_zero_or_pos t with h0 | h0
    · subst h0
      rfl
    · show (0 :: eqSetRun (0 :: r) i i2 acc).getD t 0 = (0 :: acc).getD t 0
      have ht' : t = (t - 1) + 1 := by omega
      conv_lhs => rw [ht']
      conv_rhs => rw [ht']
      show (eqSetRun (0 :: r) i i2 acc).getD (t - 1) 0 = acc.getD (t - 1) 0
      exact eqSetRun_getD_out _ _ _ _ _ (Or.inl (by omega))
  refine ⟨?_, ?_, ?_, ?_, ?_⟩
  · rw [eqSetRun_length, hW1]
  · intro q hq hq2
    rw [eqSetRun_getD_out _ _ _ _ _ (Or.inr (by omega))]
    exact hW2 q hq (by omega)
  · rw [eqSetRun_getD_out _ _ _ _ _ (Or.inr (by omega))]
    exact hW5
  · intro q hq hq2
    rcases le_or_lt (q + 1) i with hcase | hcase
    · rw [hKeep q (by omega), hKeep (q + 1) hcase]
      exact hW3 q hq hcase
    · -- i ≤ q ≤ i2: a link of the freshly written run
      have hqi : i ≤ q := by omega
      have hqi2 : q + 1 ≤ i2 + 1 := hq2
      rw [hVal q hqi (by omega), hVal (q + 1) (by omega) hq2]
      have hj : q - i < g := by omega
      have hstep := hrs (q - i) hj
      have hj1 : q - i + 1 = q + 1 - i := by omega
      rw [hj1] at hstep
      have hb1 := hrb (q - i) (by omega)
      have hb2 := hrb (q + 1 - i) (by omega)
      constructor
      · omega
      · -- the new boundary's vehicle keeps the run type
        have hvty : ctyp ((runVal a b g (q + 1 - i)).toNat - 1) =
            ctyp (r.getD i 0 - 1) := by
          apply hveh
          · have := hb2.2.2 (by omega)
            omega
          · have := hb2.2.1
            omega
        rw [hvty, ← hL]
        omega
  · intro j hj1 hjn hni
    by_cases hacc : NotIn acc j
    · exact hW4 j hj1 hjn hacc
    · simp only [NotIn, not_forall] at hacc
      obtain ⟨q, hq, hqj⟩ := hacc
      have hqj2 : acc.getD q 0 = j := not_not.mp hqj
      by_cases hpos : i ≤ q ∧ q < i2
      · -- j was an interior boundary of the processed run
        have hjr : j = r.getD q 0 := by
          rw [← hqj2]
          exact hW2 q (by omega) (by omega)
        have hjcg : j = cg0getD r (q + 1) := hjr
        have hlo : a < j := by
          rw [hjcg, ha]
          have := cg_strictMono r hinc (q + 1 - i) i (by omega) (by omega)
          have hh : i + (q + 1 - i) = q + 1 := by omega
          rw [hh] at this
          exact this
        have hhi : j < b := by
          rw [hjcg, hb]
          have := cg_strictMono r hinc (i2 + 1 - (q + 1)) (q + 1)
            (by omega) (by omega)
          have hh : q + 1 + (i2 + 1 - (q + 1)) = i2 + 1 := by omega
          rw [hh] at this
          exact this
        have e1 : ctyp (j - 1) = ctyp (r.getD i 0 - 1) :=
          hveh j hlo (by omega)
        have e2 : ctyp j = ctyp (r.getD i 0 - 1) := by
          have := hveh (j + 1) (by omega) (by omega)
          have hh : j + 1 - 1 = j := by omega
          rwa [hh] at this
        rw [e1, e2]
      · -- the position was untouched, so `j` is still in `acc`
        exfalso
        push_neg at hpos
        have : (eqSetRun (0 :: r) i i2 acc).getD q 0 = acc.getD q 0 := by
          apply eqSetRun_getD_out
          rcases le_or_lt i q with h | h
          · exact Or.inr (hpos h)
          · exact Or.inl h
        exact hni q (by rw [eqSetRun_length]; exact hq) (by rw [this]; exact hqj2)

theorem partOK_of_eqInv (dcar : DCar) (ctyp : ℕ → ℕ) (n0 : ℕ) (r : List ℕ)
    (hp : PartOK dcar ctyp n0 r) (i : ℕ) (acc : List ℕ)
    (hI : EqInv dcar ctyp n0 r i acc) (hge : r.length - 1 ≤ i) :
    PartOK dcar ctyp n0 acc := by
  obtain ⟨hW1, hW2, hW5, hW3, hW4⟩ := hI
  obtain ⟨hne, hlast, hlink, _⟩ := hp
  have hrlen : 0 < r.length := List.length_pos.mpr hne
  refine ⟨?_, ?_, ?_, ?_⟩
  · intro h
    have h0 : acc.length = 0 := by rw [h]; rfl
    omega
  · rw [getLastD_eq_getD, hW1, hW5, ← getLastD_eq_getD]
    exact hlast
  · intro q hq
    rw [hW1] at hq
    rcases le_or_lt (q + 1) i with hc | hc
    · exact hW3 q hq hc
    · -- the still-unprocessed final link keeps its original values
      have e2 : cg0getD acc (q + 1) = cg0getD r (q + 1) := by
        rw [cg_succ, cg_succ]
        have hqtop : q = r.length - 1 := by omega
        rw [hqtop]
        exact hW5
      have e1 : cg0getD acc q = cg0getD r q := by
        rcases Nat.eq_zero_or_pos q with h0 | h0
        · rw [h0]
          rfl
        · have hqq : q = (q - 1) + 1 := by omega
          rw [hqq, cg_succ, cg_succ]
          exact hW2 (q - 1) (by omega) (by omega)
      rw [e1, e2]
      exact hlink q hq
  · intro j hj1 hjn hmem
    exact hW4 j hj1 hjn ((notIn_iff acc j).mpr hmem)

theorem eqLoop_inv (dcar : DCar) (ctyp : ℕ → ℕ) (n0 : ℕ) (r : List ℕ)
    (hp : PartOK dcar ctyp n0 r) :
    ∀ (fuel i : ℕ) (acc : List ℕ), EqInv dcar ctyp n0 r i acc →
      r.length ≤ fuel + i →
      PartOK dcar ctyp n0 (eqLoop ctyp r (0 :: r) fuel i acc)
  | 0, i, acc, hI, hfuel =>
    partOK_of_eqInv dcar ctyp n0 r hp i acc hI (by omega)
  | fuel + 1, i, acc, hI, hfuel => by
    show PartOK dcar ctyp n0 (if i < r.length - 1 then
        eqLoop ctyp r (0 :: r) fuel (findRunEnd ctyp r i + 1)
          (eqSetRun (0 :: r) i (findRunEnd ctyp r i) acc)
      else acc)
    by_cases hc : i < r.length - 1
    · rw [if_pos hc]
      have hstep := eqStep_inv dcar ctyp n0 r hp i acc hI hc
      have hfr := (findRunEnd_spec ctyp r i (by omega)).1
      exact eqLoop_inv dcar ctyp n0 r hp fuel (findRunEnd ctyp r i + 1) _
        hstep (by omega)
    · rw [if_neg hc]
      exact partOK_of_eqInv dcar ctyp n0 r hp i acc hI (by omega)

theorem equalize_partOK (dcar : DCar) (ctyp : ℕ → ℕ) (n0 : ℕ) (r : List ℕ)
    (hp : PartOK dcar ctyp n0 r) :
    PartOK dcar ctyp n0 (equalizeCargroup ctyp r) := by
  apply eqLoop_inv dcar ctyp n0 r hp r.length 0 r ?_ (by omega)
  refine ⟨rfl, fun _ _ _ => rfl, rfl, ?_, ?_⟩
  · intro q _ hq0
    omega
  · intro j hj1 hjn hni
    exact hp.2.2.2 j hj1 hjn ((notIn_iff r j).mp hni)

/-- C8: for every coupler-type sequence `cti` (1 ≤ length) and every
grouping limit `dcar` whose per-type limits are at least 1, the
partition returned by `defineCarGroups` — with or without the
size-equalization post-pass — satisfies the claimed invariant
`PartOK`: it is nonempty, its `0`-prepended boundary sequence is
strictly increasing with last entry the vehicle count, every group's
size is at most its mapped coupler type's limit, and no group mixes
vehicles of different mapped coupler types. The function is a pure
Lean function, hence deterministic. -/
theorem defineCarGroups_partition (dcar : DCar) (cti : List ℕ)
    (equalizeSize : Bool) (h1 : 1 ≤ cti.length)
    (hlim : ∀ j, j < cti.length →
      1 ≤ limitOf dcar (ctypMap dcar (cti.getD j 0))) :
    PartOK dcar (fun j => ctypMap dcar (cti.getD j 0)) cti.length
      (defineCarGroups dcar cti equalizeSize) := by
  have hscan := scanCargroup_partOK dcar
    (fun j => ctypMap dcar (cti.getD j 0)) cti.length h1 hlim
  show PartOK dcar (fun j => ctypMap dcar (cti.getD j 0)) cti.length
    (if equalizeSize then
      equalizeCargroup (fun j => ctypMap dcar (cti.getD j 0))
        (scanCargroup dcar (fun j => ctypMap dcar (cti.getD j 0)) cti.length)
    else scanCargroup dcar (fun j => ctypMap dcar (cti.getD j 0)) cti.length)
  cases equalizeSize with
  | false => exact hscan
  | true =>
    exact equalize_partOK dcar (fun j => ctypMap dcar (cti.getD j 0))
      cti.length _ hscan

theorem defineCarGroups_partition_witness :
    (1 ≤ ([1, 1, 1, 1, 2, 2] : List ℕ).length ∧
      ∀ j, j < ([1, 1, 1, 1, 2, 2] : List ℕ).length →
        1 ≤ limitOf (.dict2 2 3)
          (ctypMap (.dict2 2 3) (([1, 1, 1, 1, 2, 2] : List ℕ).getD j 0))) ∧
    PartOK (.dict2 2 3)
      (fun j => ctypMap (.dict2 2 3) (([1, 1, 1, 1, 2, 2] : List ℕ).getD j 0))
      ([1, 1, 1, 1, 2, 2] : List ℕ).length
      (defineCarGroups (.dict2 2 3) [1, 1, 1, 1, 2, 2] true) :=
  ⟨⟨by decide, by decide⟩,
    defineCarGroups_partition (.dict2 2 3) [1, 1, 1, 1, 2, 2] true
      (by decide) (by decide)⟩

end PySim
